import Mathlib

/-!
# Verification of the cgol Game-of-Life engine (src/cgol.c)

Shallow embedding of the algorithmic core of `src/cgol.c`:
the grid/turn engine (`get_neighbour_living`, `applyTurn`, `resetPlayboard`,
`initRandomBoard`), the history ledger (`addHistory`, `clearHistory`,
`historyBackwards`, `historyForwards`, `historyDisplayTurn`) and the image
ingestion routine (`generateCellMapFromImage`).

Modelling conventions:
* The CLI forces `cellsX == cellsY` (the `-c` option sets both from one
  number), so the board carries a single side length `cellsX`; every place
  the C code reads `cellsY` is modelled by the same value.
* C `unsigned int` counters are modelled as `Nat`.  The turn counter's
  overflow guard (`TURN_LIMIT` = `UINT_MAX`) is modelled explicitly since
  the source carries that logic.  `livingCells` arithmetic uses `Nat`
  (truncated subtraction); in the states the theorems are about the
  counter never underflows, matching the C unsigned behaviour.
* Presentation-only fields (pixel positions `x`/`y`, the animation float
  `size`, window geometry, status strings) are omitted: no claim reads
  them.  A cell keeps `isLiving` and `cellChanged`.
* The cell array is a `List cell`; reads go through `getD` with an all-dead
  default cell.  In the C program all modelled reads are in bounds.
* File and decode handling of `generateCellMapFromImage` (fopen, extension
  check, `IMG_Load`) is I/O and is outside the model: the embedding starts
  from the decoded surface (bits per pixel, dimensions, per-channel pixel
  accessors), which is where the claims live.
* `rand()` is modelled by an arbitrary stream of draws `Nat → Nat`; the
  source applies `% (cellCount - 1)` to each draw, and so does the model.
-/

/-- One board cell: `isLiving`/`cellChanged` from `struct cell`
(drawing fields `x`, `y`, `size` and the stored coordinates `cellX`,
`cellY` are omitted; the coordinates are recovered from the flat index,
matching their initialisation `offset = x + (y * cellsY)` in `main`). -/
structure cell where
  isLiving : Bool
  cellChanged : Bool
deriving DecidableEq, Repr

/-- The playing board, from `struct playBoard` (window geometry and the
status string omitted).  `cellsX` is the side length; the C session always
has `cellsY == cellsX`. -/
structure playBoard where
  cellsX : Nat
  cells : List cell
  livingCells : Nat
  turns : Nat
  isDirty : Bool
deriving DecidableEq, Repr

/-- `gameBoard->cellCount = cellsX * cellsY` with `cellsY = cellsX`. -/
def cellCount (b : playBoard) : Nat := b.cellsX * b.cellsX

/-- Default cell used for (never exercised in-range) list reads. -/
def defaultCell : cell := ⟨false, false⟩

/-- Read cell `i` of the board (`gameBoard->cells[i]`). -/
def getC (b : playBoard) (i : Nat) : cell := b.cells.getD i defaultCell

/-- `#define TURN_LIMIT UINT_MAX`. -/
def TURN_LIMIT : Nat := 2 ^ 32 - 1

/-- Modulus of C `unsigned int` arithmetic. -/
def UINT_MOD : Nat := 2 ^ 32

/-- The x/y shift for each of the 8 directions of `enum DIRECTIONS`
(clockwise from TOP); any other direction value falls through the switch's
`default: return false`. -/
def dirOffsets (direction : Nat) : Option (Int × Int) :=
  match direction with
  | 0 => some (0, -1)    -- TOP
  | 1 => some (1, -1)    -- TOP_RIGHT
  | 2 => some (1, 0)     -- RIGHT
  | 3 => some (1, 1)     -- BOTTOM_RIGHT
  | 4 => some (0, 1)     -- BOTTOM
  | 5 => some (-1, 1)    -- BOTTOM_LEFT
  | 6 => some (-1, 0)    -- LEFT
  | 7 => some (-1, -1)   -- TOP_LEFT
  | _ => none

def TOP : Nat := 0
def LEFT : Nat := 6

/-- `get_neighbour_living`: wrapped lookup of the neighbour of the cell at
grid coordinates `(cX, cY)` in `direction`.  Low edge wraps to
`cells - 1`, high edge wraps to `0`; the flat offset is
`limitX + limitY * cellsY` (the source's stride is `cellsY`, equal to
`cellsX` on the square boards the program builds). -/
def get_neighbour_living (b : playBoard) (cX cY : Nat) (direction : Nat) : Bool :=
  match dirOffsets direction with
  | none => false
  | some (calcX, calcY) =>
    let limitX : Nat :=
      if calcX = -1 then (if cX = 0 then b.cellsX - 1 else cX - 1)
      else if calcX = 1 then (if cX = b.cellsX - 1 then 0 else cX + 1)
      else cX
    let limitY : Nat :=
      if calcY = -1 then (if cY = 0 then b.cellsX - 1 else cY - 1)
      else if calcY = 1 then (if cY = b.cellsX - 1 then 0 else cY + 1)
      else cY
    (getC b (limitX + limitY * b.cellsX)).isLiving

/-- The neighbour-count loop of `applyTurn`: directions `0..7` probed with
`get_neighbour_living` on the unmodified pre-step board. -/
def livingNeighbours (b : playBoard) (i : Nat) : Nat :=
  (List.range 8).countP
    (fun d => get_neighbour_living b (i % b.cellsX) (i / b.cellsX) d)

/-- `deathInRound[i]`: alive with fewer than 2 or more than 3 living
neighbours. -/
def willDie (b : playBoard) (i : Nat) : Bool :=
  (getC b i).isLiving &&
    (decide (livingNeighbours b i < 2) || decide (3 < livingNeighbours b i))

/-- `bornInRound[i]`: dead with exactly 3 living neighbours. -/
def willBeBorn (b : playBoard) (i : Nat) : Bool :=
  !(getC b i).isLiving && decide (livingNeighbours b i = 3)

/-- `applyTurn`: pass 1 computes `deathInRound`/`bornInRound` against the
pre-step board, pass 2 commits each cell, adjusts `livingCells`, sets
`isDirty` iff some cell changed, and (when not replaying history)
increments the turn counter with the `TURN_LIMIT` wrap guard. -/
def applyTurn (b : playBoard) (isInHistory : Bool) : playBoard :=
  { b with
    cells := (List.range (cellCount b)).map (fun i =>
      if willDie b i then ⟨false, true⟩
      else if willBeBorn b i then ⟨true, true⟩
      else ⟨(getC b i).isLiving, false⟩),
    livingCells := (List.range (cellCount b)).foldl (fun lc i =>
      if willDie b i then lc - 1
      else if willBeBorn b i then lc + 1
      else lc) b.livingCells,
    isDirty := (List.range (cellCount b)).any (fun i => willDie b i || willBeBorn b i),
    turns := if isInHistory then b.turns
      else if TURN_LIMIT < (b.turns + 1) % UINT_MOD then 0
      else (b.turns + 1) % UINT_MOD }

/-- `resetPlayboard`: every cell dead and unchanged, `turns` and
`livingCells` zeroed. -/
def resetPlayboard (b : playBoard) : playBoard :=
  { b with cells := b.cells.map (fun _ => defaultCell), turns := 0, livingCells := 0 }

/-- The rejection-sampling loop of `initRandomBoard` (lines 629-643):
while the target is positive, draw `rand() % (cellCount - 1)`; a dead cell
is made living (`cellChanged = true`), `livingCells` incremented and the
target decremented; living cells are skipped.  `draws` is the stream of
`rand()` values, `t` the position in that stream, `fuel` bounds the number
of iterations (`none` = fuel exhausted before the loop finished). -/
def initRandomBoardLoop (draws : Nat → Nat) :
    Nat → Nat → Nat → playBoard → Option playBoard
  | 0, _, _, _ => none
  | fuel + 1, t, remaining, b =>
    if remaining = 0 then some b
    else
      let i := draws t % (cellCount b - 1)
      if (getC b i).isLiving then
        initRandomBoardLoop draws fuel (t + 1) remaining b
      else
        initRandomBoardLoop draws fuel (t + 1) (remaining - 1)
          { b with cells := b.cells.set i ⟨true, true⟩,
                   livingCells := b.livingCells + 1 }

/-- `initRandomBoard`: reset the board, then run the seeding loop with
target `target`.  In the source the target is
`gameOptions->maximumFitCellsForRandom` scaled by a random factor in
[0.25, 1.00) computed with `rand()` and floating arithmetic before the
loop; the loop itself is parameterised here by the resulting target
count, which is what the spec calls the "target count `k`". -/
def initRandomBoard (b : playBoard) (draws : Nat → Nat) (target fuel : Nat) :
    Option playBoard :=
  initRandomBoardLoop draws fuel 0 target (resetPlayboard b)

/-- Number of cells with `alive == true`. -/
def countLiving (b : playBoard) : Nat := b.cells.countP (·.isLiving)

/-! ## Generic list helpers -/

theorem list_getD_set_self {α : Type} :
    ∀ (l : List α) (i : Nat) (x d : α), i < l.length → (l.set i x).getD i d = x
  | [], i, _, _, h => absurd h (by simp)
  | _ :: _, 0, _, _, _ => rfl
  | _ :: t, i + 1, x, d, h =>
    list_getD_set_self t i x d (by simpa using h)

theorem list_getD_set_ne {α : Type} :
    ∀ (l : List α) (i j : Nat) (x d : α), i ≠ j → (l.set i x).getD j d = l.getD j d
  | [], _, _, _, _, _ => rfl
  | _ :: _, 0, 0, _, _, h => absurd rfl h
  | _ :: _, 0, _ + 1, _, _, _ => rfl
  | _ :: _, _ + 1, 0, _, _, _ => rfl
  | _ :: t, i + 1, j + 1, x, d, h =>
    list_getD_set_ne t i j x d (fun he => h (by simpa using he))

theorem getD_map_range {α : Type} (f : Nat → α) (d : α) {i m : Nat} (h : i < m) :
    (((List.range m).map f).getD i d) = f i := by
  have hlen : i < ((List.range m).map f).length := by simpa using h
  rw [List.getD_eq_getElem _ _ hlen]
  simp

theorem getD_map_const {α β : Type} :
    ∀ (l : List α) (c : β) (i : Nat) (d : β), i < l.length →
      ((l.map (fun _ => c)).getD i d) = c
  | [], _, i, _, h => absurd h (by simp)
  | _ :: _, _, 0, _, _ => rfl
  | _ :: t, c, i + 1, d, h => getD_map_const t c i d (by simpa using h)

theorem list_countP_le_of_imp {α : Type} (p q : α → Bool) :
    ∀ l : List α, (∀ a ∈ l, p a = true → q a = true) → l.countP p ≤ l.countP q := by
  intro l
  induction l with
  | nil => intro _; simp
  | cons x t ih =>
    intro h
    rw [List.countP_cons, List.countP_cons]
    have ht := ih (fun a ha => h a (List.mem_cons_of_mem x ha))
    by_cases hp : p x = true
    · have hq := h x (List.mem_cons_self x t) hp
      simp [hp, hq]; omega
    · simp only [Bool.not_eq_true] at hp
      simp [hp]; omega

theorem list_countP_le_add {α : Type} (p q r : α → Bool) :
    ∀ l : List α, (∀ a ∈ l, p a = true → q a = true ∨ r a = true) →
      l.countP p ≤ l.countP q + l.countP r := by
  intro l
  induction l with
  | nil => intro _; simp
  | cons x t ih =>
    intro h
    rw [List.countP_cons, List.countP_cons, List.countP_cons]
    have ht := ih (fun a ha => h a (List.mem_cons_of_mem x ha))
    by_cases hp : p x = true
    · rcases h x (List.mem_cons_self x t) hp with hq | hr
      · simp [hp, hq]; omega
      · simp [hp, hr]; omega
    · simp only [Bool.not_eq_true] at hp
      simp [hp]; omega

/-! ## Claim C2: the step rule -/

/-- C2: after one `applyTurn` step, a cell is alive iff it was alive with
2 or 3 living neighbours or dead with exactly 3 living neighbours
(neighbour counts taken on the pre-step board), and `cellChanged` is set
exactly on the cells whose alive status flipped. -/
theorem applyTurn_rule (b : playBoard) (flag : Bool) (i : Nat)
    (hi : i < cellCount b) :
    ((getC (applyTurn b flag) i).isLiving =
      ((getC b i).isLiving &&
          (decide (livingNeighbours b i = 2) || decide (livingNeighbours b i = 3)) ||
        (!(getC b i).isLiving && decide (livingNeighbours b i = 3)))) ∧
    ((getC (applyTurn b flag) i).cellChanged =
      ((getC (applyTurn b flag) i).isLiving != (getC b i).isLiving)) := by
  have hc : getC (applyTurn b flag) i =
      (if willDie b i then (⟨false, true⟩ : cell)
       else if willBeBorn b i then (⟨true, true⟩ : cell)
       else ⟨(getC b i).isLiving, false⟩) := by
    show ((List.range (cellCount b)).map _).getD i defaultCell = _
    exact getD_map_range _ _ hi
  rw [hc]
  unfold willDie willBeBorn
  cases hl : (getC b i).isLiving <;>
    by_cases h2 : livingNeighbours b i < 2 <;>
    by_cases h3 : 3 < livingNeighbours b i <;>
    by_cases he : livingNeighbours b i = 3 <;>
    by_cases he2 : livingNeighbours b i = 2 <;>
    simp [hl, h2, h3, he, he2] <;> omega

/-- Witness for C2 on a concrete board: a 2×2 square of living cells on a
4×4 board is stable (cell 5 stays alive, unchanged). -/
def c2Board : playBoard :=
  { cellsX := 4,
    cells := (List.range 16).map (fun i =>
      if i = 5 ∨ i = 6 ∨ i = 9 ∨ i = 10 then ⟨true, false⟩ else defaultCell),
    livingCells := 4, turns := 0, isDirty := false }

theorem applyTurn_rule_witness :
    5 < cellCount c2Board ∧
    ((getC (applyTurn c2Board false) 5).isLiving =
      ((getC c2Board 5).isLiving &&
          (decide (livingNeighbours c2Board 5 = 2) ||
            decide (livingNeighbours c2Board 5 = 3)) ||
        (!(getC c2Board 5).isLiving && decide (livingNeighbours c2Board 5 = 3)))) ∧
    ((getC (applyTurn c2Board false) 5).cellChanged =
      ((getC (applyTurn c2Board false) 5).isLiving != (getC c2Board 5).isLiving)) :=
  ⟨by decide, (applyTurn_rule c2Board false 5 (by decide)).1,
    (applyTurn_rule c2Board false 5 (by decide)).2⟩

/-! ## Claim C5: toroidal wraparound of the top-left cell -/

/-- C5: on an N×N board (N ≥ 1), the top-left cell's TOP neighbour lookup
returns the living status of the bottom-left cell (flat index
`(N-1)*N`), and its LEFT neighbour lookup returns the living status of
the top-right cell (flat index `N-1`). -/
theorem wrap_topLeft (b : playBoard) (hn : 1 ≤ b.cellsX) :
    get_neighbour_living b 0 0 TOP =
        (getC b ((b.cellsX - 1) * b.cellsX)).isLiving ∧
    get_neighbour_living b 0 0 LEFT = (getC b (b.cellsX - 1)).isLiving := by
  constructor
  · show get_neighbour_living b 0 0 0 = _
    simp [get_neighbour_living, dirOffsets]
  · show get_neighbour_living b 0 0 6 = _
    simp [get_neighbour_living, dirOffsets]

/-- Witness for C5 at N = 3, with only the bottom-left and top-right cells
alive. -/
def c5Board : playBoard :=
  { cellsX := 3,
    cells := (List.range 9).map (fun i =>
      if i = 6 ∨ i = 2 then ⟨true, false⟩ else defaultCell),
    livingCells := 2, turns := 0, isDirty := false }

theorem wrap_topLeft_witness :
    1 ≤ c5Board.cellsX ∧
    (get_neighbour_living c5Board 0 0 TOP =
        (getC c5Board ((c5Board.cellsX - 1) * c5Board.cellsX)).isLiving ∧
      get_neighbour_living c5Board 0 0 LEFT =
        (getC c5Board (c5Board.cellsX - 1)).isLiving) :=
  ⟨by decide, wrap_topLeft c5Board (by decide)⟩

/-! ## History ledger (delta-based turn records) -/

/-- Per-entry status from `enum INFOPANELSTATES` as stored in
`gameHistoryTurn.state` (STABLE = -1, DEAD = 0, BORN = 1). -/
inductive recState where
  | stable
  | dead
  | born
deriving DecidableEq, Repr

/-- One interesting cell of a recorded turn: the source keeps two parallel
arrays `state`/`index` plus per-status counters; the entry list models the
aligned pairs in scan order (the counters are the counts of each status in
the list). -/
structure historyEntry where
  state : recState
  index : Nat
deriving DecidableEq, Repr

/-- `struct gameHistoryTurn` (the `turn` label and the derivable counters
`records`, `countBorn`, `countDeath`, `countStable` are omitted; `records`
is `entries.length`). -/
structure gameHistoryTurn where
  entries : List historyEntry
deriving DecidableEq, Repr

/-- `struct gameHistoryGame`. -/
structure gameHistoryGame where
  turns : Nat
  currentTurn : Nat
  turnData : List gameHistoryTurn
deriving DecidableEq, Repr

/-- `clearHistory`: returns `false` (no mutation) when there is no record
storage, otherwise frees everything and zeroes the counters. -/
def clearHistory (h : gameHistoryGame) : Bool × gameHistoryGame :=
  if h.turnData = [] then (false, h) else (true, ⟨0, 0, []⟩)

/-- The record-building scan of `addHistory` (lines 1042-1068): for each
cell, changed cells are recorded as BORN (if now living) or DEAD, and
unchanged living cells as STABLE; dead unchanged cells are omitted.
The recorded index is `cellX + (cellY * cellsX)` with `cellX = i % cellsX`
and `cellY = i / cellsX` (their values on the square boards of `main`). -/
def recordEntries (b : playBoard) : List historyEntry :=
  (List.range (cellCount b)).filterMap (fun i =>
    if (getC b i).cellChanged then
      some ⟨if (getC b i).isLiving then .born else .dead,
            (i % b.cellsX) + (i / b.cellsX) * b.cellsX⟩
    else if (getC b i).isLiving then
      some ⟨.stable, (i % b.cellsX) + (i / b.cellsX) * b.cellsX⟩
    else none)

/-- `addHistory`: fails (no mutation) when the ledger's recorded-turn count
exceeds the board's turn counter; clears first when the ledger is at
`TURN_LIMIT`; otherwise appends the record built from the board, points
the cursor at it and bumps the ledger count. -/
def addHistory (h : gameHistoryGame) (b : playBoard) : Bool × gameHistoryGame :=
  if b.turns < h.turns then (false, h)
  else
    let h1 := if h.turns = TURN_LIMIT then (clearHistory h).2 else h
    (true, ⟨h1.turns + 1, h1.turns, h1.turnData ++ [⟨recordEntries b⟩]⟩)

/-- `historyDisplayTurn`: reset every cell to dead/unchanged, then replay
the record under the cursor: STABLE → alive unchanged, DEAD → dead
changed, BORN → alive changed.  Neither `livingCells` nor `turns` is
touched.  Always returns true. -/
def historyDisplayTurn (h : gameHistoryGame) (b : playBoard) : Bool × playBoard :=
  let cleared := b.cells.map (fun _ => defaultCell)
  let r := h.turnData.getD h.currentTurn ⟨[]⟩
  (true, { b with cells := r.entries.foldl (fun cl e =>
      match e.state with
      | .stable => cl.set e.index ⟨true, false⟩
      | .dead => cl.set e.index ⟨false, true⟩
      | .born => cl.set e.index ⟨true, true⟩) cleared })

/-- `historyBackwards`: fails when the cursor is at 0 or the ledger is
empty; otherwise decrements the cursor and replays that record. -/
def historyBackwards (h : gameHistoryGame) (b : playBoard) :
    Bool × gameHistoryGame × playBoard :=
  if h.currentTurn = 0 ∨ h.turns = 0 then (false, h, b)
  else
    let h' := { h with currentTurn := h.currentTurn - 1 }
    let r := historyDisplayTurn h' b
    (r.1, h', r.2)

/-- `historyForwards`: fails when the cursor equals the board's turn
counter, the ledger is empty, or the cursor is at the last record;
otherwise increments the cursor and replays that record. -/
def historyForwards (h : gameHistoryGame) (b : playBoard) :
    Bool × gameHistoryGame × playBoard :=
  if h.currentTurn = b.turns ∨ h.turns = 0 ∨ h.currentTurn = h.turns - 1 then
    (false, h, b)
  else
    let h' := { h with currentTurn := h.currentTurn + 1 }
    let r := historyDisplayTurn h' b
    (r.1, h', r.2)

/-! ## Claim C7: the Record ordering guard -/

/-- C7 (amended): `addHistory` fails with no mutation exactly on the
ordering guard (ledger count exceeding the board's turn counter); and when
the ledger count *equals* the board's turn counter (e.g. a fresh board and
an empty ledger), the first `addHistory` succeeds and an immediately
repeated `addHistory` fails.  (When the ledger count is strictly below the
board's turn counter, a second immediate `addHistory` still succeeds; see
the counterexample.) -/
theorem addHistory_guard (h : gameHistoryGame) (b : playBoard) :
    (b.turns < h.turns → addHistory h b = (false, h)) ∧
    (h.turns = b.turns → h.turns < TURN_LIMIT →
      (addHistory h b).1 = true ∧
      (addHistory (addHistory h b).2 b).1 = false) := by
  constructor
  · intro hgt
    simp [addHistory, hgt]
  · intro heq hlim
    have h1 : ¬ b.turns < h.turns := by omega
    have h2 : ¬ h.turns = TURN_LIMIT := by omega
    constructor
    · simp [addHistory, h1, h2]
    · have hlt : b.turns < h.turns + 1 := by omega
      simp [addHistory, h1, h2, hlt]

/-- Counterexample to C7 as stated: on a board whose turn counter is 1
with an empty ledger, `addHistory` called twice without an intervening
step succeeds *both* times (the guard only compares counts, it does not
detect double recording when the ledger lags the board). -/
def c7Board : playBoard :=
  { cellsX := 1, cells := [defaultCell], livingCells := 0, turns := 1,
    isDirty := false }

def c7EmptyHistory : gameHistoryGame := ⟨0, 0, []⟩

theorem addHistory_double_success :
    (addHistory c7EmptyHistory c7Board).1 = true ∧
    (addHistory (addHistory c7EmptyHistory c7Board).2 c7Board).1 = true := by
  decide

/-- Witness for C7 (amended) at concrete inputs: both the failing branch
(ledger ahead of the board) and the equal-counters branch. -/
def c7FreshBoard : playBoard :=
  { cellsX := 1, cells := [defaultCell], livingCells := 0, turns := 0,
    isDirty := false }

def c7AheadHistory : gameHistoryGame := ⟨2, 1, [⟨[]⟩, ⟨[]⟩]⟩

theorem addHistory_guard_witness :
    (c7FreshBoard.turns < c7AheadHistory.turns ∧
      addHistory c7AheadHistory c7FreshBoard = (false, c7AheadHistory)) ∧
    (c7EmptyHistory.turns = c7FreshBoard.turns ∧
      c7EmptyHistory.turns < TURN_LIMIT ∧
      (addHistory c7EmptyHistory c7FreshBoard).1 = true ∧
      (addHistory (addHistory c7EmptyHistory c7FreshBoard).2 c7FreshBoard).1 = false) :=
  ⟨⟨by decide, (addHistory_guard c7AheadHistory c7FreshBoard).1 (by decide)⟩,
    by decide, by decide,
    ((addHistory_guard c7EmptyHistory c7FreshBoard).2 (by decide) (by decide)).1,
    ((addHistory_guard c7EmptyHistory c7FreshBoard).2 (by decide) (by decide)).2⟩

/-! ## More list helpers -/

theorem list_countP_congr {α : Type} (p q : α → Bool) :
    ∀ l : List α, (∀ a ∈ l, p a = q a) → l.countP p = l.countP q := by
  intro l
  induction l with
  | nil => intro _; rfl
  | cons x t ih =>
    intro h
    rw [List.countP_cons, List.countP_cons,
      ih (fun a ha => h a (List.mem_cons_of_mem x ha)),
      h x (List.mem_cons_self x t)]

theorem list_countP_set_incr {α : Type} (p : α → Bool) :
    ∀ (l : List α) (i : Nat) (x d : α), i < l.length → p (l.getD i d) = false →
      p x = true → (l.set i x).countP p = l.countP p + 1
  | [], i, _, _, h, _, _ => absurd h (by simp)
  | a :: t, 0, x, d, _, hp, hx => by
    have ha : (a :: t).getD 0 d = a := rfl
    rw [ha] at hp
    simp [List.countP_cons, hp, hx]
  | a :: t, i + 1, x, d, h, hp, hx => by
    have ht : (a :: t).getD (i + 1) d = t.getD i d := rfl
    rw [ht] at hp
    have := list_countP_set_incr p t i x d (by simpa using h) hp hx
    simp [List.countP_cons, this]
    omega

theorem list_length_filterMap {α β : Type} (f : α → Option β) :
    ∀ l : List α, (l.filterMap f).length = l.countP (fun a => (f a).isSome) := by
  intro l
  induction l with
  | nil => rfl
  | cons x t ih =>
    rw [List.filterMap_cons, List.countP_cons]
    cases hfx : f x with
    | none => simp [hfx, ih]
    | some y => simp [hfx, ih]

theorem list_eq_map_getD {α : Type} (d : α) :
    ∀ l : List α, l = (List.range l.length).map (fun i => l.getD i d)
  | [] => rfl
  | a :: t => by
    rw [List.length_cons, List.range_succ_eq_map, List.map_cons, List.map_map]
    have h0 : (a :: t).getD 0 d = a := rfl
    rw [h0]
    have hcongr :
        (List.range t.length).map ((fun i => (a :: t).getD i d) ∘ Nat.succ) =
          (List.range t.length).map (fun i => t.getD i d) := by
      apply List.map_congr_left
      intro i _
      rfl
    rw [hcongr, ← list_eq_map_getD d t]

theorem countP_cells (b : playBoard) (p : cell → Bool)
    (hlen : b.cells.length = cellCount b) :
    b.cells.countP p = (List.range (cellCount b)).countP (fun i => p (getC b i)) := by
  conv_lhs => rw [list_eq_map_getD defaultCell b.cells]
  rw [hlen, List.countP_map]
  rfl

/-- The `livingCells` bookkeeping of `applyTurn` pass 2: provided the
deaths in the processed list never outnumber the starting count (true when
`livingCells` counts the living cells, since only living cells die), the
interleaved `--`/`++` fold equals count - deaths + births. -/
theorem foldl_death_born (d bo : Nat → Bool) :
    ∀ (l : List Nat) (lc : Nat), l.countP d ≤ lc →
      (∀ a ∈ l, d a = true → bo a = false) →
      l.foldl (fun acc i => if d i then acc - 1 else if bo i then acc + 1 else acc) lc
        = lc - l.countP d + l.countP bo := by
  intro l
  induction l with
  | nil => intro lc _ _; simp
  | cons x t ih =>
    intro lc hle hdisj
    have hdisj' := fun a ha => hdisj a (List.mem_cons_of_mem x ha)
    rw [List.countP_cons] at hle
    rw [List.foldl_cons, List.countP_cons, List.countP_cons]
    by_cases hx : d x = true
    · have hbo : bo x = false := hdisj x (List.mem_cons_self x t) hx
      have hle' : t.countP d + 1 ≤ lc := by simpa [hx] using hle
      simp only [hx, hbo, if_true, Bool.false_eq_true, if_false]
      rw [ih (lc - 1) (by omega) hdisj']
      omega
    · have hle' : t.countP d ≤ lc := by simpa [hx] using hle
      by_cases hbx : bo x = true
      · simp only [hx, hbx, if_true, Bool.false_eq_true, if_false]
        rw [ih (lc + 1) (by omega) hdisj']
        omega
      · simp only [hx, hbx, Bool.false_eq_true, if_false]
        rw [ih lc hle' hdisj']
        omega

/-! ## Claim C4: random seeding births exactly the target count -/

/-- Invariant of the seeding loop: every successful run borns exactly
`remaining` cells, adding `remaining` both to `livingCells` and to the
actual living-cell count, and preserves the board shape. -/
theorem initRandomBoardLoop_spec (draws : Nat → Nat) :
    ∀ (fuel t rem : Nat) (b b' : playBoard),
      b.cells.length = cellCount b →
      2 ≤ cellCount b →
      b.livingCells = countLiving b →
      initRandomBoardLoop draws fuel t rem b = some b' →
      b'.livingCells = b.livingCells + rem ∧
      countLiving b' = countLiving b + rem ∧
      b'.cells.length = cellCount b ∧ b'.cellsX = b.cellsX := by
  intro fuel
  induction fuel with
  | zero =>
    intro t rem b b' _ _ _ h
    exact absurd h (by simp [initRandomBoardLoop])
  | succ fuel ih =>
    intro t rem b b' hlen hcnt hlc hrun
    rw [initRandomBoardLoop] at hrun
    by_cases hrem : rem = 0
    · rw [if_pos hrem] at hrun
      have hb : b = b' := Option.some.inj hrun
      subst hb
      exact ⟨by simp [hrem], by simp [hrem], hlen, rfl⟩
    · rw [if_neg hrem] at hrun
      have hpos : 0 < cellCount b - 1 := by omega
      have hilt : draws t % (cellCount b - 1) < cellCount b - 1 := Nat.mod_lt _ hpos
      have hilen : draws t % (cellCount b - 1) < b.cells.length := by omega
      by_cases hal : (getC b (draws t % (cellCount b - 1))).isLiving = true
      · rw [if_pos hal] at hrun
        exact ih _ _ _ _ hlen hcnt hlc hrun
      · rw [if_neg hal] at hrun
        have hal' : (·.isLiving : cell → Bool)
            (b.cells.getD (draws t % (cellCount b - 1)) defaultCell) = false := by
          simpa [getC] using hal
        have hset := list_countP_set_incr (·.isLiving) b.cells
          (draws t % (cellCount b - 1)) ⟨true, true⟩ defaultCell hilen hal' rfl
        obtain ⟨h1, h2, h3, h4⟩ := ih _ _ _ _
          (by simpa [cellCount] using hlen)
          (by simpa [cellCount] using hcnt)
          (by simp only [countLiving]; rw [hset]; simp [hlc, countLiving])
          hrun
        refine ⟨by simp at h1; omega, ?_, by simpa [cellCount] using h3,
          by simpa using h4⟩
        have : countLiving { b with
            cells := b.cells.set (draws t % (cellCount b - 1)) ⟨true, true⟩,
            livingCells := b.livingCells + 1 } = countLiving b + 1 := by
          simp only [countLiving]
          exact hset
        rw [this] at h2
        omega

/-- C4: for a target `k` with `0 < k < cellCount`, every terminating run
of `initRandomBoard` (random seeding on a freshly reset board) leaves
exactly `k` living cells and `livingCells = k`. -/
theorem initRandomBoard_exact (b : playBoard) (draws : Nat → Nat) (k fuel : Nat)
    (b' : playBoard)
    (hlen : b.cells.length = cellCount b)
    (hk0 : 0 < k) (hk : k < cellCount b)
    (hrun : initRandomBoard b draws k fuel = some b') :
    b'.livingCells = k ∧ countLiving b' = k := by
  have hlen0 : (resetPlayboard b).cells.length = cellCount (resetPlayboard b) := by
    simp [resetPlayboard, cellCount, hlen]
  have hcnt0 : 2 ≤ cellCount (resetPlayboard b) := by
    have : cellCount (resetPlayboard b) = cellCount b := rfl
    omega
  have hlc0 : (resetPlayboard b).livingCells = countLiving (resetPlayboard b) := by
    simp only [resetPlayboard, countLiving]
    rw [List.countP_map]
    rw [List.countP_eq_zero.mpr]
    intro a _
    simp [defaultCell]
  obtain ⟨h1, h2, _, _⟩ :=
    initRandomBoardLoop_spec draws fuel 0 k (resetPlayboard b) b' hlen0 hcnt0 hlc0 hrun
  constructor
  · simpa [resetPlayboard] using h1
  · rw [h2, hlc0.symm]
    simp [resetPlayboard]

/-- Witness for C4: a 2×2 board, identity draw stream, target 2. -/
def c4Board : playBoard :=
  { cellsX := 2, cells := List.replicate 4 defaultCell, livingCells := 0,
    turns := 0, isDirty := false }

def c4Result : playBoard :=
  (initRandomBoard c4Board (fun t => t) 2 5).getD c4Board

theorem initRandomBoard_exact_witness :
    (c4Board.cells.length = cellCount c4Board ∧ 0 < 2 ∧ 2 < cellCount c4Board ∧
      initRandomBoard c4Board (fun t => t) 2 5 = some c4Result) ∧
    (c4Result.livingCells = 2 ∧ countLiving c4Result = 2) :=
  ⟨⟨by decide, by decide, by decide, by decide⟩,
    initRandomBoard_exact c4Board (fun t => t) 2 5 c4Result (by decide) (by decide)
      (by decide) (by decide)⟩

/-! ## Claim C9: delta-record size bound -/

/-- C9: on a board whose `cellChanged` flags come from the step just
applied, the record built by `addHistory` has one entry per interesting
cell (changed, or living and unchanged), and its entry count is at most
`livingCells` before the step plus `livingCells` after the step. -/
theorem recordEntries_length_bound (b : playBoard)
    (hlen : b.cells.length = cellCount b)
    (hlc : b.livingCells = countLiving b) :
    (recordEntries (applyTurn b false)).length ≤
      b.livingCells + (applyTurn b false).livingCells := by
  have hcell : ∀ i, i < cellCount b → getC (applyTurn b false) i =
      (if willDie b i then (⟨false, true⟩ : cell)
       else if willBeBorn b i then (⟨true, true⟩ : cell)
       else ⟨(getC b i).isLiving, false⟩) := by
    intro i hi
    show ((List.range (cellCount b)).map _).getD i defaultCell = _
    exact getD_map_range _ _ hi
  -- the record length counts the interesting cells
  have hL : (recordEntries (applyTurn b false)).length =
      (List.range (cellCount b)).countP (fun i =>
        ((getC (applyTurn b false) i).cellChanged ||
          (getC (applyTurn b false) i).isLiving)) := by
    rw [recordEntries, list_length_filterMap]
    apply list_countP_congr
    intro i _
    by_cases hch : (getC (applyTurn b false) i).cellChanged = true
    · simp [hch]
    · by_cases hal : (getC (applyTurn b false) i).isLiving = true
      · simp [hch, hal]
      · simp [hch, hal]
  -- each interesting cell is either newborn or was alive before the step
  have hbound := list_countP_le_add
    (fun i => ((getC (applyTurn b false) i).cellChanged ||
      (getC (applyTurn b false) i).isLiving))
    (willBeBorn b) (fun i => (getC b i).isLiving)
    (List.range (cellCount b))
    (by
      intro i hi h
      have hi' := List.mem_range.mp hi
      have h' : (getC (applyTurn b false) i).cellChanged = true ∨
          (getC (applyTurn b false) i).isLiving = true := by simpa using h
      show willBeBorn b i = true ∨ (getC b i).isLiving = true
      rw [hcell i hi'] at h'
      by_cases hd : willDie b i = true
      · right
        simp [willDie] at hd
        exact hd.1
      · by_cases hbn : willBeBorn b i = true
        · left; exact hbn
        · right
          simpa [hd, hbn] using h')
  have hpre : (List.range (cellCount b)).countP (fun i => (getC b i).isLiving) =
      countLiving b := (countP_cells b _ hlen).symm
  have hD : (List.range (cellCount b)).countP (willDie b) ≤ b.livingCells := by
    rw [hlc, ← hpre]
    apply list_countP_le_of_imp
    intro a _ hd
    simp [willDie] at hd
    exact hd.1
  have hdisj : ∀ a ∈ List.range (cellCount b),
      willDie b a = true → willBeBorn b a = false := by
    intro a _ hd
    simp [willDie] at hd
    simp [willBeBorn, hd.1]
  have hfold : (applyTurn b false).livingCells =
      b.livingCells - (List.range (cellCount b)).countP (willDie b) +
        (List.range (cellCount b)).countP (willBeBorn b) := by
    show (List.range (cellCount b)).foldl _ b.livingCells = _
    exact foldl_death_born (willDie b) (willBeBorn b) _ _ hD hdisj
  rw [hL]
  omega

/-- Witness for C9 on a concrete board: the stable 2×2 block on a 4×4
board (4 living cells before and after; the record has 4 entries). -/
def c9Board : playBoard :=
  { cellsX := 4,
    cells := (List.range 16).map (fun i =>
      if i = 5 ∨ i = 6 ∨ i = 9 ∨ i = 10 then ⟨true, false⟩ else defaultCell),
    livingCells := 4, turns := 0, isDirty := false }

theorem recordEntries_length_bound_witness :
    (c9Board.cells.length = cellCount c9Board ∧
      c9Board.livingCells = countLiving c9Board) ∧
    (recordEntries (applyTurn c9Board false)).length ≤
      c9Board.livingCells + (applyTurn c9Board false).livingCells :=
  ⟨⟨by decide, by decide⟩, recordEntries_length_bound c9Board (by decide) (by decide)⟩

/-! ## Claim C1: the livingCells invariant across operations -/

/-- C1 failing input: a 3×3 board whose centre cell is alive.  Record the
initial state, apply one turn (the lone cell dies), record again, then
navigate one step backwards.  The replay repopulates the centre cell but
`historyDisplayTurn` never touches `livingCells`, which stays 0 while one
cell is alive — the invariant `livingCells = #{alive}` (and the spec's
"recompute as the count of Stable or Born entries") is violated. -/
def c1Board : playBoard :=
  { cellsX := 3,
    cells := (List.range 9).map (fun i => if i = 4 then ⟨true, false⟩ else defaultCell),
    livingCells := 1, turns := 0, isDirty := false }

def c1Rec1 : Bool × gameHistoryGame := addHistory ⟨0, 0, []⟩ c1Board

def c1Stepped : playBoard := applyTurn c1Board false

def c1Rec2 : Bool × gameHistoryGame := addHistory c1Rec1.2 c1Stepped

def c1Nav : Bool × gameHistoryGame × playBoard := historyBackwards c1Rec2.2 c1Stepped

/-- C1: evaluation of the code at the failing input.  Both records and the
backward navigation succeed; the replayed record holds exactly one
Stable/Born entry and the board has exactly one living cell afterwards,
yet `livingCells` still holds 0 (untouched by the replay). -/
theorem historyReplay_livingCells_stale :
    c1Rec1.1 = true ∧ c1Rec2.1 = true ∧ c1Nav.1 = true ∧
    ((c1Rec2.2.turnData.getD c1Nav.2.1.currentTurn ⟨[]⟩).entries.countP
      (fun e => decide (e.state = recState.stable) ||
        decide (e.state = recState.born))) = 1 ∧
    countLiving c1Nav.2.2 = 1 ∧
    c1Nav.2.2.livingCells = 0 := by
  decide

/-! ## Helpers for history replay (claim C6) -/

theorem list_map_const_eq {α β : Type} (c : β) :
    ∀ (l1 l2 : List α), l1.length = l2.length →
      l1.map (fun _ => c) = l2.map (fun _ => c)
  | [], [], _ => rfl
  | [], _ :: _, h => absurd h (by simp)
  | _ :: _, [], h => absurd h (by simp)
  | _ :: t1, _ :: t2, h => by
    simp only [List.map_cons]
    rw [list_map_const_eq c t1 t2 (by simpa using h)]

theorem list_foldl_filterMap {α β γ : Type} (f : α → Option β) (g : γ → β → γ) :
    ∀ (l : List α) (z : γ),
      (l.filterMap f).foldl g z =
        l.foldl (fun z a => match f a with | some y => g z y | none => z) z := by
  intro l
  induction l with
  | nil => intro z; rfl
  | cons x t ih =>
    intro z
    rw [List.filterMap_cons]
    cases hfx : f x with
    | none => rw [List.foldl_cons, hfx, ih]
    | some y => rw [List.foldl_cons, List.foldl_cons, hfx, ih]

/-- The single replay step of `historyDisplayTurn` applied to the entry
produced for cell `i`. -/
theorem foldl_writeOnce_length (step : List cell → Nat → List cell)
    (w : Nat → Option cell)
    (hstep : ∀ cl i, step cl i =
      match w i with | some v => cl.set i v | none => cl) :
    ∀ (l : List Nat) (cl : List cell), (l.foldl step cl).length = cl.length := by
  intro l
  induction l with
  | nil => intro cl; rfl
  | cons x t ih =>
    intro cl
    rw [List.foldl_cons, ih, hstep]
    cases w x <;> simp

/-- A fold over `List.range m` whose step at `i` writes (at most) index
`i`: the result at `j` is the written value for `j < m`, the original
value otherwise. -/
theorem foldl_writeOnce (step : List cell → Nat → List cell)
    (w : Nat → Option cell)
    (hstep : ∀ cl i, step cl i =
      match w i with | some v => cl.set i v | none => cl) :
    ∀ (m : Nat) (cl : List cell), m ≤ cl.length → ∀ (j : Nat) (d : cell),
      ((List.range m).foldl step cl).getD j d =
        if j < m then (match w j with | some v => v | none => cl.getD j d)
        else cl.getD j d := by
  intro m
  induction m with
  | zero =>
    intro cl _ j d
    simp
  | succ m ih =>
    intro cl hm j d
    rw [List.range_succ, List.foldl_append, List.foldl_cons, List.foldl_nil, hstep]
    have hlenf : ((List.range m).foldl step cl).length = cl.length :=
      foldl_writeOnce_length step w hstep _ cl
    by_cases hjm : j = m
    · subst hjm
      rw [if_pos (by omega)]
      cases hwj : w j with
      | none =>
        rw [ih cl (by omega) j d, if_neg (by omega)]
      | some v =>
        exact list_getD_set_self _ j v d (by omega)
    · cases hwm : w m with
      | none =>
        rw [ih cl (by omega) j d]
        by_cases hj : j < m
        · rw [if_pos hj, if_pos (by omega)]
        · rw [if_neg hj, if_neg (by omega)]
      | some v =>
        rw [list_getD_set_ne _ m j v d (fun he => hjm he.symm),
          ih cl (by omega) j d]
        by_cases hj : j < m
        · rw [if_pos hj, if_pos (by omega)]
        · rw [if_neg hj, if_neg (by omega)]

theorem idx_roundtrip (i n : Nat) : i % n + i / n * n = i := by
  rw [Nat.mul_comm]
  exact Nat.mod_add_div i n

theorem length_foldl_entrySet (step : List cell → historyEntry → List cell)
    (hstep : ∀ cl e, (step cl e).length = cl.length) :
    ∀ (es : List historyEntry) (cl : List cell),
      (es.foldl step cl).length = cl.length := by
  intro es
  induction es with
  | nil => intro cl; rfl
  | cons e t ih =>
    intro cl
    rw [List.foldl_cons, ih, hstep]

/-- Replay keeps the cell-array length (and every non-cell field). -/
theorem historyDisplayTurn_length (h : gameHistoryGame) (b : playBoard) :
    (historyDisplayTurn h b).2.cells.length = b.cells.length := by
  show (List.foldl _ (b.cells.map _) _).length = _
  rw [length_foldl_entrySet _ (by
    intro cl e
    cases e.state <;> simp)]
  simp

/-- `historyDisplayTurn` as a record update: only `cells` is rebuilt. -/
theorem historyDisplayTurn_eq (h : gameHistoryGame) (b : playBoard) :
    (historyDisplayTurn h b).2 =
      { b with
        cells := (h.turnData.getD h.currentTurn ⟨[]⟩).entries.foldl
          (fun cl e => match e.state with
            | recState.stable => cl.set e.index ⟨true, false⟩
            | recState.dead => cl.set e.index ⟨false, true⟩
            | recState.born => cl.set e.index ⟨true, true⟩)
          (b.cells.map (fun _ => defaultCell)) } := rfl

/-- Replaying on top of a replayed board gives the same result as
replaying on the original board: the replay starts from an all-dead array
of the same length either way. -/
theorem replay_replay (h1 h2 : gameHistoryGame) (b : playBoard) :
    (historyDisplayTurn h1 (historyDisplayTurn h2 b).2).2 =
      (historyDisplayTurn h1 b).2 := by
  have hcl : (historyDisplayTurn h2 b).2.cells.map (fun _ => defaultCell)
      = b.cells.map (fun _ => defaultCell) :=
    list_map_const_eq defaultCell _ _ (historyDisplayTurn_length h2 b)
  rw [historyDisplayTurn_eq h1 (historyDisplayTurn h2 b).2,
    historyDisplayTurn_eq h1 b, hcl, historyDisplayTurn_eq h2 b]

/-! ## The history round-trip protocol (claim C6) -/

/-- `N` applications of `applyTurn` outside of history mode. -/
def stepN (b : playBoard) : Nat → playBoard
  | 0 => b
  | n + 1 => applyTurn (stepN b n) false

theorem stepN_cellsX (b : playBoard) : ∀ N, (stepN b N).cellsX = b.cellsX
  | 0 => rfl
  | N + 1 => by
    show (applyTurn (stepN b N) false).cellsX = b.cellsX
    rw [show (applyTurn (stepN b N) false).cellsX = (stepN b N).cellsX from rfl,
      stepN_cellsX b N]

theorem stepN_cellCount (b : playBoard) (N : Nat) :
    cellCount (stepN b N) = cellCount b := by
  unfold cellCount
  rw [stepN_cellsX]

theorem stepN_length (b : playBoard) (hlen : b.cells.length = cellCount b) :
    ∀ N, (stepN b N).cells.length = cellCount b
  | 0 => hlen
  | N + 1 => by
    show (applyTurn (stepN b N) false).cells.length = cellCount b
    have : (applyTurn (stepN b N) false).cells.length = cellCount (stepN b N) := by
      show ((List.range (cellCount (stepN b N))).map _).length = _
      simp
    rw [this, stepN_cellCount]

theorem stepN_turns (b : playBoard) :
    ∀ N, b.turns + N < UINT_MOD → (stepN b N).turns = b.turns + N := by
  intro N
  induction N with
  | zero => intro _; rfl
  | succ N ih =>
    intro hN
    have hTU : TURN_LIMIT + 1 = UINT_MOD := by norm_num [TURN_LIMIT, UINT_MOD]
    have ht := ih (by omega)
    show (applyTurn (stepN b N) false).turns = b.turns + (N + 1)
    have hmod : ((stepN b N).turns + 1) % UINT_MOD = (stepN b N).turns + 1 := by
      apply Nat.mod_eq_of_lt
      omega
    have hnl : ¬ TURN_LIMIT < ((stepN b N).turns + 1) % UINT_MOD := by
      rw [hmod]; omega
    have hval : (applyTurn (stepN b N) false).turns =
        if TURN_LIMIT < ((stepN b N).turns + 1) % UINT_MOD then 0
        else ((stepN b N).turns + 1) % UINT_MOD := by
      simp [applyTurn]
    rw [hval, if_neg hnl, hmod, ht]
    omega

/-- One protocol step of the claim: apply a turn, then record it. -/
def stepRecord (s : playBoard × gameHistoryGame) : playBoard × gameHistoryGame :=
  let b' := applyTurn s.1 false
  (b', (addHistory s.2 b').2)

/-- `N` turn-and-record protocol steps from board `b` and ledger `h`. -/
def recPhase (b : playBoard) (h : gameHistoryGame) : Nat → playBoard × gameHistoryGame
  | 0 => (b, h)
  | n + 1 => stepRecord (recPhase b h n)

/-- `N` navigation calls in sequence (each call feeds the ledger and board
it produced to the next). -/
def navIter (nav : gameHistoryGame → playBoard → Bool × gameHistoryGame × playBoard) :
    Nat → gameHistoryGame × playBoard → gameHistoryGame × playBoard
  | 0, s => s
  | k + 1, s => navIter nav k (nav s.1 s.2).2

/-- The recording protocol from a fresh ledger: after `N` turn-and-record
steps the board is `stepN b N`, the ledger holds `N` records (the record
of each stepped board, in order) and the cursor sits on the last one. -/
theorem recPhase_spec (b : playBoard) :
    ∀ N, b.turns + N < UINT_MOD →
      recPhase b ⟨0, 0, []⟩ N =
        (stepN b N, ⟨N, N - 1, (List.range N).map (fun j =>
          (⟨recordEntries (stepN b (j + 1))⟩ : gameHistoryTurn))⟩) := by
  intro N
  induction N with
  | zero => intro _; rfl
  | succ N ih =>
    intro hN
    have hTU : TURN_LIMIT + 1 = UINT_MOD := by norm_num [TURN_LIMIT, UINT_MOD]
    have hstep : (stepN b (N + 1)).turns = b.turns + (N + 1) := stepN_turns b (N + 1) hN
    rw [recPhase, ih (by omega)]
    have h1 : applyTurn (stepN b N) false = stepN b (N + 1) := rfl
    have h2 : (addHistory
        ⟨N, N - 1, (List.range N).map (fun j =>
          (⟨recordEntries (stepN b (j + 1))⟩ : gameHistoryTurn))⟩
        (applyTurn (stepN b N) false)).2 =
        ⟨N + 1, N, (List.range (N + 1)).map (fun j =>
          (⟨recordEntries (stepN b (j + 1))⟩ : gameHistoryTurn))⟩ := by
      rw [h1]
      simp only [addHistory, hstep]
      rw [if_neg (by omega), if_neg (by omega : ¬ N = TURN_LIMIT)]
      simp only []
      rw [List.range_succ, List.map_append]
      rfl
    simp only [stepRecord]
    rw [Prod.ext_iff]
    exact ⟨h1, h2⟩

/-- Iterating `historyBackwards` `k` times: the cursor moves down by `k`
(saturating at 0), the ledger records are untouched, and the board is the
replay of the record the cursor lands on (or the input board when nothing
was replayed). -/
theorem navBack_iter :
    ∀ (k T c : Nat) (td : List gameHistoryTurn) (b : playBoard), 0 < T →
      navIter historyBackwards k (⟨T, c, td⟩, b) =
        (⟨T, c - k, td⟩,
          if c = 0 ∨ k = 0 then b
          else (historyDisplayTurn ⟨T, c - k, td⟩ b).2) := by
  intro k
  induction k with
  | zero =>
    intro T c td b _
    simp [navIter]
  | succ k ih =>
    intro T c td b hT
    rw [navIter]
    by_cases hc : c = 0
    · have hfail : historyBackwards ⟨T, c, td⟩ b = (false, ⟨T, c, td⟩, b) := by
        simp [historyBackwards, hc]
      rw [hfail]
      show navIter historyBackwards k (⟨T, c, td⟩, b) = _
      rw [ih T c td b hT]
      have he1 : c - k = c - (k + 1) := by omega
      have hp1 : c = 0 ∨ k = 0 := Or.inl hc
      have hp2 : c = 0 ∨ k + 1 = 0 := Or.inl hc
      rw [he1, if_pos hp1, if_pos hp2]
    · have hT0 : ¬ T = 0 := by omega
      have hsucc : (historyBackwards ⟨T, c, td⟩ b).2 =
          (⟨T, c - 1, td⟩, (historyDisplayTurn ⟨T, c - 1, td⟩ b).2) := by
        simp [historyBackwards, hc, hT0]
      rw [hsucc]
      rw [ih T (c - 1) td _ hT]
      have harith : c - 1 - k = c - (k + 1) := by omega
      have hcond : ¬ (c = 0 ∨ k + 1 = 0) := by simp [hc]
      rw [harith, if_neg hcond]
      by_cases hck : c - 1 = 0 ∨ k = 0
      · rw [if_pos hck]
        have hcc : c - 1 = c - (k + 1) := by
          rcases hck with h1 | h1 <;> omega
        rw [hcc]
      · rw [if_neg hck, replay_replay]

/-- Iterating `historyForwards` `k` times from a cursor below the last
record (on a board whose turn counter is at least the record count): the
cursor moves up by `k` (saturating at the last record), and the board is
the replay of the record the cursor lands on. -/
theorem navFwd_iter :
    ∀ (k T c : Nat) (td : List gameHistoryTurn) (b : playBoard),
      0 < T → c < T → T ≤ b.turns →
      navIter historyForwards k (⟨T, c, td⟩, b) =
        (⟨T, min (c + k) (T - 1), td⟩,
          if c = T - 1 ∨ k = 0 then b
          else (historyDisplayTurn ⟨T, min (c + k) (T - 1), td⟩ b).2) := by
  intro k
  induction k with
  | zero =>
    intro T c td b hT hc _
    have hmin : min (c + 0) (T - 1) = c := by omega
    rw [navIter, hmin, if_pos (Or.inr rfl)]
  | succ k ih =>
    intro T c td b hT hc hbt
    rw [navIter]
    by_cases hcT : c = T - 1
    · have hfail : historyForwards ⟨T, c, td⟩ b = (false, ⟨T, c, td⟩, b) := by
        simp [historyForwards, hcT]
      rw [hfail]
      show navIter historyForwards k (⟨T, c, td⟩, b) = _
      rw [ih T c td b hT hc hbt]
      have hm1 : min (c + k) (T - 1) = c := by omega
      have hm2 : min (c + (k + 1)) (T - 1) = c := by omega
      have hp1 : c = T - 1 ∨ k = 0 := Or.inl hcT
      have hp2 : c = T - 1 ∨ k + 1 = 0 := Or.inl hcT
      rw [hm1, hm2, if_pos hp1, if_pos hp2]
    · have hne1 : ¬ c = b.turns := by omega
      have hne2 : ¬ T = 0 := by omega
      have hsucc : (historyForwards ⟨T, c, td⟩ b).2 =
          (⟨T, c + 1, td⟩, (historyDisplayTurn ⟨T, c + 1, td⟩ b).2) := by
        simp [historyForwards, hne1, hne2, hcT]
      have hbt1 : T ≤ (historyDisplayTurn ⟨T, c + 1, td⟩ b).2.turns := by
        rw [historyDisplayTurn_eq]
        exact hbt
      rw [hsucc]
      rw [ih T (c + 1) td _ hT (by omega) hbt1]
      have harith : c + 1 + k = c + (k + 1) := by omega
      have hcond : ¬ (c = T - 1 ∨ k + 1 = 0) := by simp [hcT]
      rw [harith, if_neg hcond]
      by_cases hck : c + 1 = T - 1 ∨ k = 0
      · rw [if_pos hck]
        have hcc : c + 1 = min (c + (k + 1)) (T - 1) := by
          rcases hck with h1 | h1 <;> omega
        rw [hcc]
      · rw [if_neg hck, replay_replay]

/-- Pointwise value of replaying the record built from board `B` onto any
cell array `cl` that covers the board: changed cells come back as
born/dead, unchanged living cells as stable, and unmentioned cells keep
the (reset) base value. -/
theorem replay_fold_recordEntries (B : playBoard) (cl : List cell)
    (hcl : cellCount B ≤ cl.length) (j : Nat) (d : cell) :
    ((recordEntries B).foldl
        (fun cl e => match e.state with
          | recState.stable => cl.set e.index ⟨true, false⟩
          | recState.dead => cl.set e.index ⟨false, true⟩
          | recState.born => cl.set e.index ⟨true, true⟩) cl).getD j d =
      if j < cellCount B then
        (if (getC B j).cellChanged then
          (if (getC B j).isLiving then (⟨true, true⟩ : cell) else ⟨false, true⟩)
        else if (getC B j).isLiving then (⟨true, false⟩ : cell) else cl.getD j d)
      else cl.getD j d := by
  rw [recordEntries, list_foldl_filterMap]
  refine (foldl_writeOnce _
    (fun i => if (getC B i).cellChanged then
        some (if (getC B i).isLiving then (⟨true, true⟩ : cell) else ⟨false, true⟩)
      else if (getC B i).isLiving then some (⟨true, false⟩ : cell) else none)
    ?_ (cellCount B) cl hcl j d).trans ?_
  · intro cl' i
    by_cases hch : (getC B i).cellChanged = true
    · by_cases hal : (getC B i).isLiving = true
      · simp [hch, hal, idx_roundtrip]
      · simp [hch, hal, idx_roundtrip]
    · by_cases hal : (getC B i).isLiving = true
      · simp [hch, hal, idx_roundtrip]
      · simp [hch, hal]
  · by_cases hj : j < cellCount B
    · rw [if_pos hj, if_pos hj]
      by_cases hch : (getC B j).cellChanged = true
      · by_cases hal : (getC B j).isLiving = true <;> simp [hch, hal]
      · by_cases hal : (getC B j).isLiving = true <;> simp [hch, hal]
    · rw [if_neg hj, if_neg hj]

/-- Replaying the record built from board `B` onto any board of the same
cell-array length reproduces `B`'s alive values cell for cell. -/
theorem replay_recordEntries (h : gameHistoryGame) (B target : playBoard)
    (hrec : h.turnData.getD h.currentTurn ⟨[]⟩ = ⟨recordEntries B⟩)
    (hlenB : B.cells.length = cellCount B)
    (hlenT : target.cells.length = B.cells.length) :
    (historyDisplayTurn h target).2.cells.map cell.isLiving =
      B.cells.map cell.isLiving := by
  have hlenR : (historyDisplayTurn h target).2.cells.length = B.cells.length := by
    rw [historyDisplayTurn_length]; exact hlenT
  apply List.ext_getElem
  · simp [hlenR]
  · intro i h1 h2
    rw [List.getElem_map, List.getElem_map]
    have hiB : i < B.cells.length := by simpa using h2
    have hiR : i < (historyDisplayTurn h target).2.cells.length := by
      rw [hlenR]; exact hiB
    rw [← List.getD_eq_getElem (historyDisplayTurn h target).2.cells defaultCell hiR,
      ← List.getD_eq_getElem B.cells defaultCell hiB]
    have hres : (historyDisplayTurn h target).2.cells =
        (recordEntries B).foldl
          (fun cl e => match e.state with
            | recState.stable => cl.set e.index ⟨true, false⟩
            | recState.dead => cl.set e.index ⟨false, true⟩
            | recState.born => cl.set e.index ⟨true, true⟩)
          (target.cells.map (fun _ => defaultCell)) := by
      rw [historyDisplayTurn_eq, hrec]
    rw [hres, replay_fold_recordEntries B _ (by simp [hlenT, hlenB]) i defaultCell,
      if_pos (by omega : i < cellCount B)]
    have hbase : (target.cells.map (fun _ => defaultCell)).getD i defaultCell
        = defaultCell :=
      getD_map_const target.cells defaultCell i defaultCell (by omega)
    show _ = (getC B i).isLiving
    cases hch : (getC B i).cellChanged <;> cases hal : (getC B i).isLiving <;>
      simp [hch, hal, hbase, defaultCell]

/-- The full round-trip protocol of claim C6: record `N` consecutive
turns from a fresh ledger, then navigate backward `N` times and forward
`N` times; result is the final board shown. -/
def roundTrip (b : playBoard) (N : Nat) : playBoard :=
  (navIter historyForwards N
    (navIter historyBackwards N
      ((recPhase b ⟨0, 0, []⟩ N).2, (recPhase b ⟨0, 0, []⟩ N).1))).2

/-- C6: for any N ≥ 0, recording N consecutive turns and then calling
NavigateBackward N times followed by NavigateForward N times leaves the
board with exactly the per-cell alive values of the live sequence's final
board `stepN b N`. -/
theorem history_roundTrip (b : playBoard) (N : Nat)
    (hlen : b.cells.length = cellCount b)
    (hturn : b.turns + N < UINT_MOD) :
    (roundTrip b N).cells.map cell.isLiving =
      (stepN b N).cells.map cell.isLiving := by
  rw [roundTrip, recPhase_spec b N hturn]
  by_cases hN0 : N = 0
  · subst hN0
    rfl
  · have hTpos : 0 < N := by omega
    rw [navBack_iter N N (N - 1)
      ((List.range N).map (fun j =>
        (⟨recordEntries (stepN b (j + 1))⟩ : gameHistoryTurn)))
      (stepN b N) hTpos]
    have hc0 : N - 1 - N = 0 := by omega
    rw [hc0]
    by_cases hN1 : N = 1
    · subst hN1
      rw [if_pos (by omega : (1 : Nat) - 1 = 0 ∨ (1 : Nat) = 0)]
      have hbt : 1 ≤ (stepN b 1).turns := by
        rw [stepN_turns b 1 hturn]; omega
      rw [navFwd_iter 1 1 0
        ((List.range 1).map (fun j =>
          (⟨recordEntries (stepN b (j + 1))⟩ : gameHistoryTurn)))
        (stepN b 1) (by omega) (by omega) hbt]
      rw [if_pos (by omega : (0 : Nat) = 1 - 1 ∨ (1 : Nat) = 0)]
    · have hN2 : 2 ≤ N := by omega
      rw [if_neg (by omega : ¬ (N - 1 = 0 ∨ N = 0))]
      have hbt : N ≤ (historyDisplayTurn
          ⟨N, 0, (List.range N).map (fun j =>
            (⟨recordEntries (stepN b (j + 1))⟩ : gameHistoryTurn))⟩
          (stepN b N)).2.turns := by
        rw [historyDisplayTurn_eq]
        show N ≤ (stepN b N).turns
        rw [stepN_turns b N hturn]
        omega
      rw [navFwd_iter N N 0
        ((List.range N).map (fun j =>
          (⟨recordEntries (stepN b (j + 1))⟩ : gameHistoryTurn)))
        _ hTpos (by omega) hbt]
      have hmin : min (0 + N) (N - 1) = N - 1 := by omega
      rw [hmin, if_neg (by omega : ¬ ((0 : Nat) = N - 1 ∨ N = 0)), replay_replay]
      apply replay_recordEntries
      · show ((List.range N).map (fun j =>
          (⟨recordEntries (stepN b (j + 1))⟩ : gameHistoryTurn))).getD (N - 1) ⟨[]⟩ = _
        rw [getD_map_range _ _ (by omega : N - 1 < N),
          show N - 1 + 1 = N by omega]
      · rw [stepN_length b hlen N, stepN_cellCount]
      · rfl

/-- Witness for C6: a 3-cell blinker on a 3×3 board, two recorded turns,
two backward and two forward navigations. -/
def c6Board : playBoard :=
  { cellsX := 3,
    cells := (List.range 9).map (fun i =>
      if i = 3 ∨ i = 4 ∨ i = 5 then ⟨true, false⟩ else defaultCell),
    livingCells := 3, turns := 0, isDirty := false }

theorem history_roundTrip_witness :
    (c6Board.cells.length = cellCount c6Board ∧ c6Board.turns + 2 < UINT_MOD) ∧
    (roundTrip c6Board 2).cells.map cell.isLiving =
      (stepN c6Board 2).cells.map cell.isLiving :=
  ⟨⟨by decide, by decide⟩, history_roundTrip c6Board 2 (by decide) (by decide)⟩

/-! ## Image ingestion (`generateCellMapFromImage`) -/

/-- Result of the ingestion routine: the C function's boolean return, the
message passed to `set_options_message` on failure (empty on success), and
the board (unchanged on failure).  The modelling starts at the decoded
surface: the earlier file-system and decoder failure paths (fopen,
filename extension, `IMG_Load`) are I/O outside the embedding. -/
structure IngestOut where
  ok : Bool
  msg : String
  board : playBoard
deriving DecidableEq, Repr

/-- The mutable locals of the analysis loop (lines 847-934):
`workingX`/`workingY` (upper bounds of the block being scanned), `row`,
the cell `index`, and the board data being filled. -/
structure IngestState where
  wX : Nat
  wY : Nat
  row : Nat
  index : Nat
  cells : List cell
  living : Nat
deriving DecidableEq, Repr

/-- One colour channel summed over the block `[wX - ppcX, wX) × [wY - ppcY, wY)`;
the pixel offset is the source's `tempOffset = j + (i * imgWidth) - i`. -/
def blockChannelSum (ch : Nat → Nat) (W ppcX ppcY wX wY : Nat) : Nat :=
  Finset.sum (Finset.Ico (wX - ppcX) wX) (fun j =>
    Finset.sum (Finset.Ico (wY - ppcY) wY) (fun i => ch (j + i * W - i)))

/-- The threshold test: each channel average (sum over the block divided
by `totalPixelPerCell = ppcX * ppcY`), the three averages added, compared
against `colorThreshold` (alive when ≤). -/
def blockIsDark (imgR imgG imgB : Nat → Nat) (W ppcX ppcY thr wX wY : Nat) : Bool :=
  decide (blockChannelSum imgR W ppcX ppcY wX wY / (ppcX * ppcY) +
    blockChannelSum imgG W ppcX ppcY wX wY / (ppcX * ppcY) +
    blockChannelSum imgB W ppcX ppcY wX wY / (ppcX * ppcY) ≤ thr)

/-- Lines 896-927 of the loop body: scan the block ending at
`(s.wX, s.wY)`, set the cell at `s.index` alive (changed) and bump
`livingCells` if the block is dark enough, then `++index`. -/
def ingestBlockStep (imgR imgG imgB : Nat → Nat) (W ppcX ppcY thr : Nat)
    (s : IngestState) : IngestState :=
  if blockIsDark imgR imgG imgB W ppcX ppcY thr s.wX s.wY then
    { s with cells := s.cells.set s.index ⟨true, true⟩,
             living := s.living + 1, index := s.index + 1 }
  else { s with index := s.index + 1 }

/-- The `while (true)` analysis loop (lines 876-934): advance `workingX`;
on overrunning `limitX = imgWidth` reset to the left, advance
`workingY`/`row` and reset `index = row * cellsX - row` (breaking when
`workingY` overruns `limitY = imgHeight`); scan the block; break when the
incremented `index` reaches `cellCount - 1`.  `fuel` bounds iterations
(`none` = exhausted; the caller passes more fuel than the loop can use). -/
def ingestLoop (imgR imgG imgB : Nat → Nat) (W H ppcX ppcY n thr : Nat) :
    Nat → IngestState → Option IngestState
  | 0, _ => none
  | fuel + 1, s =>
    if W < s.wX + ppcX then
      if H < s.wY + ppcY then some s
      else
        let s1 := ingestBlockStep imgR imgG imgB W ppcX ppcY thr
          { s with wX := ppcX, wY := s.wY + ppcY, row := s.row + 1,
                   index := (s.row + 1) * n - (s.row + 1) }
        if n * n - 1 ≤ s1.index then some s1
        else ingestLoop imgR imgG imgB W H ppcX ppcY n thr fuel s1
    else
      let s1 := ingestBlockStep imgR imgG imgB W ppcX ppcY thr
        { s with wX := s.wX + ppcX }
      if n * n - 1 ≤ s1.index then some s1
      else ingestLoop imgR imgG imgB W H ppcX ppcY n thr fuel s1

/-- `generateCellMapFromImage` from the decoded surface onwards: the
bits-per-pixel precondition, the per-cell pixel ratios
`xPixelPerCell = floor(imgWidth / cellsX)` and the Y equivalent (the C
`floor` over `double` division equals integer division for these ranges),
the ratio precondition, board reset, and the analysis loop starting at
`workingY = yPixelPerCell`.  On failure the input board is returned
untouched with the message of the corresponding `set_options_message`
call. -/
def generateCellMapFromImage (bpp W H : Nat) (imgR imgG imgB : Nat → Nat)
    (b : playBoard) (colorThreshold : Nat) : Option IngestOut :=
  if bpp < 32 then some ⟨false, "Only 32 bit png images are supported.", b⟩
  else
    let xPixelPerCell := W / b.cellsX
    let yPixelPerCell := H / b.cellsX
    if xPixelPerCell < 1 ∨ yPixelPerCell < 1 then
      some ⟨false,
        "Image pixel size should be bigger then x and y count of the conway cells.",
        b⟩
    else
      let b0 := resetPlayboard b
      match ingestLoop imgR imgG imgB W H xPixelPerCell yPixelPerCell b.cellsX
          colorThreshold ((H + 2) * (W + 2) + 2)
          ⟨0, yPixelPerCell, 0, 0, b0.cells, 0⟩ with
      | none => none
      | some s => some ⟨true, "",
          { b0 with cells := s.cells, livingCells := s.living }⟩

/-! ## Claim C8: ingestion preconditions -/

/-- C8: when the image declares fewer than 32 bits per pixel, or either
floored pixels-per-cell ratio is below 1, ingestion returns failure with
the corresponding message and the board exactly as passed in. -/
theorem generateCellMapFromImage_precondition (bpp W H : Nat)
    (imgR imgG imgB : Nat → Nat) (b : playBoard) (thr : Nat)
    (hviol : bpp < 32 ∨ W / b.cellsX < 1 ∨ H / b.cellsX < 1) :
    generateCellMapFromImage bpp W H imgR imgG imgB b thr =
        some ⟨false, "Only 32 bit png images are supported.", b⟩ ∨
    generateCellMapFromImage bpp W H imgR imgG imgB b thr =
        some ⟨false,
          "Image pixel size should be bigger then x and y count of the conway cells.",
          b⟩ := by
  by_cases hbpp : bpp < 32
  · left
    simp [generateCellMapFromImage, hbpp]
  · right
    have hratio : W / b.cellsX < 1 ∨ H / b.cellsX < 1 := by
      rcases hviol with h | h
      · exact absurd h hbpp
      · exact h
    simp only [generateCellMapFromImage]
    rw [if_neg hbpp, if_pos hratio]

/-- Witness for C8: a 24-bit image is rejected with the board unchanged. -/
def c8Board : playBoard :=
  { cellsX := 5, cells := List.replicate 25 defaultCell, livingCells := 0,
    turns := 0, isDirty := false }

theorem generateCellMapFromImage_precondition_witness :
    ((24 : Nat) < 32 ∨ (10 : Nat) / c8Board.cellsX < 1 ∨
      (10 : Nat) / c8Board.cellsX < 1) ∧
    (generateCellMapFromImage 24 10 10 (fun _ => 0) (fun _ => 0) (fun _ => 0)
        c8Board 765 =
        some ⟨false, "Only 32 bit png images are supported.", c8Board⟩ ∨
      generateCellMapFromImage 24 10 10 (fun _ => 0) (fun _ => 0) (fun _ => 0)
        c8Board 765 =
        some ⟨false,
          "Image pixel size should be bigger then x and y count of the conway cells.",
          c8Board⟩) :=
  ⟨Or.inl (by decide),
    generateCellMapFromImage_precondition 24 10 10 (fun _ => 0) (fun _ => 0)
      (fun _ => 0) c8Board 765 (Or.inl (by decide))⟩

/-! ## Claim C10: the last cell is never seeded -/

theorem mul_sub_one_eq (a n : Nat) : a * n - a = a * (n - 1) := by
  cases n with
  | zero => simp
  | succ m =>
    rw [Nat.mul_succ, Nat.succ_sub_one]
    omega

/-- `ingestBlockStep` bumps the index by one and (only when the block is
dark) writes the cell at the pre-bump index. -/
theorem ingestBlockStep_spec (imgR imgG imgB : Nat → Nat) (W ppcX ppcY thr : Nat)
    (s : IngestState) :
    ingestBlockStep imgR imgG imgB W ppcX ppcY thr s =
      { s with
        cells := if blockIsDark imgR imgG imgB W ppcX ppcY thr s.wX s.wY then
            s.cells.set s.index ⟨true, true⟩ else s.cells,
        living := if blockIsDark imgR imgG imgB W ppcX ppcY thr s.wX s.wY then
            s.living + 1 else s.living,
        index := s.index + 1 } := by
  unfold ingestBlockStep
  by_cases hdark : blockIsDark imgR imgG imgB W ppcX ppcY thr s.wX s.wY = true
  · rw [if_pos hdark, if_pos hdark, if_pos hdark]
  · rw [if_neg hdark, if_neg hdark, if_neg hdark]

/-- The analysis loop never writes the cell at index `cellCount - 1`:
within a row writes stay strictly under `cellCount - 1` because of the
index break, and each row restart writes at `row * (cellsX - 1)`, which
the row structure (at least `cellsX` blocks per row) keeps strictly below
the previous row's final index. -/
theorem ingestLoop_lastCell (imgR imgG imgB : Nat → Nat)
    (W H ppcX ppcY n thr : Nat)
    (hn : 2 ≤ n) (hpx : 1 ≤ ppcX) (hkx : n ≤ W / ppcX) :
    ∀ (fuel c : Nat) (s s' : IngestState),
      s.wX = c * ppcX → s.wX ≤ W → s.index = s.row * (n - 1) + c →
      s.index ≤ n * n - 2 →
      (s.cells.getD (n * n - 1) defaultCell).isLiving = false →
      ingestLoop imgR imgG imgB W H ppcX ppcY n thr fuel s = some s' →
      (s'.cells.getD (n * n - 1) defaultCell).isLiving = false := by
  intro fuel
  induction fuel with
  | zero =>
    intro c s s' _ _ _ _ _ h
    exact absurd h (by simp [ingestLoop])
  | succ fuel ih =>
    intro c s s' hwx hwxle hidx hidxle hlast hrun
    have hn2 : 4 ≤ n * n := Nat.mul_le_mul hn hn
    rw [ingestLoop] at hrun
    by_cases hover : W < s.wX + ppcX
    · rw [if_pos hover] at hrun
      by_cases hyover : H < s.wY + ppcY
      · rw [if_pos hyover] at hrun
        exact (Option.some.inj hrun) ▸ hlast
      · rw [if_neg hyover] at hrun
        have hcle : c ≤ W / ppcX := by
          rw [Nat.le_div_iff_mul_le (by omega : 0 < ppcX)]
          omega
        have hcge : W / ppcX ≤ c := by
          have hlt : W / ppcX < c + 1 := by
            rw [Nat.div_lt_iff_lt_mul (by omega : 0 < ppcX), Nat.succ_mul]
            omega
          omega
        have hc : n ≤ c := by omega
        have hwidx : (s.row + 1) * n - (s.row + 1) = s.row * (n - 1) + (n - 1) := by
          rw [mul_sub_one_eq (s.row + 1) n, Nat.succ_mul]
        rw [ingestBlockStep_spec] at hrun
        dsimp only at hrun
        have hne : (s.row + 1) * n - (s.row + 1) ≠ n * n - 1 := by
          rw [hwidx]
          omega
        have hpres : ((if blockIsDark imgR imgG imgB W ppcX ppcY thr ppcX (s.wY + ppcY) then
              s.cells.set ((s.row + 1) * n - (s.row + 1)) ⟨true, true⟩
            else s.cells).getD (n * n - 1) defaultCell).isLiving = false := by
          by_cases hdk : blockIsDark imgR imgG imgB W ppcX ppcY thr ppcX (s.wY + ppcY) = true
          · rw [if_pos hdk, list_getD_set_ne _ _ _ _ _ hne]
            exact hlast
          · rw [if_neg hdk]
            exact hlast
        by_cases hbreak : n * n - 1 ≤ (s.row + 1) * n - (s.row + 1) + 1
        · rw [if_pos hbreak] at hrun
          exact (Option.some.inj hrun) ▸ hpres
        · rw [if_neg hbreak] at hrun
          refine ih 1 _ s' ?_ ?_ ?_ ?_ hpres hrun
          · dsimp only
            omega
          · dsimp only
            have hle : n * ppcX ≤ W := by
              have := (Nat.le_div_iff_mul_le (by omega : 0 < ppcX)).mp hkx
              omega
            have hup : 1 * ppcX ≤ n * ppcX :=
              Nat.mul_le_mul (by omega : 1 ≤ n) (Nat.le_refl ppcX)
            omega
          · dsimp only
            rw [mul_sub_one_eq]
          · dsimp only
            omega
    · rw [if_neg hover] at hrun
      rw [ingestBlockStep_spec] at hrun
      dsimp only at hrun
      have hne : s.index ≠ n * n - 1 := by omega
      have hpres : ((if blockIsDark imgR imgG imgB W ppcX ppcY thr (s.wX + ppcX) s.wY then
            s.cells.set s.index ⟨true, true⟩
            else s.cells).getD (n * n - 1) defaultCell).isLiving = false := by
        by_cases hdk : blockIsDark imgR imgG imgB W ppcX ppcY thr (s.wX + ppcX) s.wY = true
        · rw [if_pos hdk, list_getD_set_ne _ _ _ _ _ hne]
          exact hlast
        · rw [if_neg hdk]
          exact hlast
      by_cases hbreak : n * n - 1 ≤ s.index + 1
      · rw [if_pos hbreak] at hrun
        exact (Option.some.inj hrun) ▸ hpres
      · rw [if_neg hbreak] at hrun
        refine ih (c + 1) _ s' ?_ ?_ ?_ ?_ hpres hrun
        · dsimp only
          rw [hwx, Nat.succ_mul]
        · dsimp only
          omega
        · dsimp only
          omega
        · dsimp only
          omega

theorem list_getD_oob {α : Type} :
    ∀ (l : List α) (i : Nat) (d : α), l.length ≤ i → l.getD i d = d
  | [], _, _, _ => rfl
  | _ :: _, 0, _, h => absurd h (by simp)
  | _ :: t, i + 1, d, h => list_getD_oob t i d (by simpa using h)

/-- After a reset every read of the board (in or out of range) is dead. -/
theorem resetPlayboard_dead (b : playBoard) (j : Nat) :
    (getC (resetPlayboard b) j).isLiving = false := by
  show (((b.cells.map (fun _ => defaultCell)).getD j defaultCell)).isLiving = false
  by_cases hj : j < b.cells.length
  · rw [getD_map_const b.cells defaultCell j defaultCell hj]
    rfl
  · rw [list_getD_oob _ _ _ (by simpa using hj)]
    rfl

/-- The seeding loop draws `rand() % (cellCount - 1)`, so it never
touches the cell at index `cellCount - 1`. -/
theorem initRandomBoardLoop_lastCell (draws : Nat → Nat) :
    ∀ (fuel t rem : Nat) (b b' : playBoard),
      2 ≤ cellCount b →
      (getC b (cellCount b - 1)).isLiving = false →
      initRandomBoardLoop draws fuel t rem b = some b' →
      (getC b' (cellCount b - 1)).isLiving = false := by
  intro fuel
  induction fuel with
  | zero =>
    intro t rem b b' _ _ h
    exact absurd h (by simp [initRandomBoardLoop])
  | succ fuel ih =>
    intro t rem b b' hcnt hlast hrun
    rw [initRandomBoardLoop] at hrun
    by_cases hrem : rem = 0
    · rw [if_pos hrem] at hrun
      exact (Option.some.inj hrun) ▸ hlast
    · rw [if_neg hrem] at hrun
      have hilt : draws t % (cellCount b - 1) < cellCount b - 1 :=
        Nat.mod_lt _ (by omega)
      by_cases hal : (getC b (draws t % (cellCount b - 1))).isLiving = true
      · rw [if_pos hal] at hrun
        exact ih _ _ _ _ hcnt hlast hrun
      · rw [if_neg hal] at hrun
        have hlast2 : (getC
            { b with cells := b.cells.set (draws t % (cellCount b - 1)) ⟨true, true⟩,
                     livingCells := b.livingCells + 1 }
            (cellCount b - 1)).isLiving = false := by
          show ((b.cells.set (draws t % (cellCount b - 1)) ⟨true, true⟩).getD
            (cellCount b - 1) defaultCell).isLiving = false
          rw [list_getD_set_ne _ _ _ _ _ (by omega)]
          exact hlast
        exact ih (t + 1) (rem - 1)
          { b with cells := b.cells.set (draws t % (cellCount b - 1)) ⟨true, true⟩,
                   livingCells := b.livingCells + 1 } b' hcnt hlast2 hrun

/-- C10: neither random seeding nor a successful image ingestion ever
brings the cell at the highest flat index (`cellCount - 1`) alive: the
seeding draw is `rand() % (cellCount - 1)`, and the ingestion loop's
index break keeps every write strictly below `cellCount - 1`. -/
theorem lastCell_never_alive :
    (∀ (b : playBoard) (draws : Nat → Nat) (k fuel : Nat) (b' : playBoard),
      2 ≤ b.cellsX →
      initRandomBoard b draws k fuel = some b' →
      (getC b' (cellCount b - 1)).isLiving = false) ∧
    (∀ (bpp W H : Nat) (imgR imgG imgB : Nat → Nat) (b : playBoard) (thr : Nat)
      (out : IngestOut),
      2 ≤ b.cellsX →
      generateCellMapFromImage bpp W H imgR imgG imgB b thr = some out →
      out.ok = true →
      (getC out.board (cellCount b - 1)).isLiving = false) := by
  constructor
  · intro b draws k fuel b' hn hrun
    have hcnt : 4 ≤ cellCount b := Nat.mul_le_mul hn hn
    exact initRandomBoardLoop_lastCell draws fuel 0 k (resetPlayboard b) b'
      (by show 2 ≤ cellCount b; omega) (resetPlayboard_dead b _) hrun
  · intro bpp W H imgR imgG imgB b thr out hn hrun hok
    simp only [generateCellMapFromImage] at hrun
    by_cases hbpp : bpp < 32
    · rw [if_pos hbpp] at hrun
      have := Option.some.inj hrun
      rw [← this] at hok
      exact absurd hok (by simp)
    · rw [if_neg hbpp] at hrun
      by_cases hratio : W / b.cellsX < 1 ∨ H / b.cellsX < 1
      · rw [if_pos hratio] at hrun
        have := Option.some.inj hrun
        rw [← this] at hok
        exact absurd hok (by simp)
      · rw [if_neg hratio] at hrun
        push_neg at hratio
        obtain ⟨hpx, hpy⟩ := hratio
        cases hloop : ingestLoop imgR imgG imgB W H (W / b.cellsX) (H / b.cellsX)
            b.cellsX thr ((H + 2) * (W + 2) + 2)
            ⟨0, H / b.cellsX, 0, 0, (resetPlayboard b).cells, 0⟩ with
        | none =>
          rw [hloop] at hrun
          exact absurd hrun (by simp)
        | some s =>
          rw [hloop] at hrun
          have hout := (Option.some.inj hrun).symm
          subst hout
          show (s.cells.getD (cellCount b - 1) defaultCell).isLiving = false
          have hcnt : 4 ≤ cellCount b := Nat.mul_le_mul hn hn
          have hkx : b.cellsX ≤ W / (W / b.cellsX) := by
            rw [Nat.le_div_iff_mul_le (by omega : 0 < W / b.cellsX), Nat.mul_comm]
            exact Nat.div_mul_le_self W b.cellsX
          exact ingestLoop_lastCell imgR imgG imgB W H (W / b.cellsX)
            (H / b.cellsX) b.cellsX thr hn (by omega) hkx
            ((H + 2) * (W + 2) + 2) 0
            ⟨0, H / b.cellsX, 0, 0, (resetPlayboard b).cells, 0⟩ s
            (by simp) (by simp) (by simp)
            (by show (0 : Nat) ≤ _; omega)
            (resetPlayboard_dead b (b.cellsX * b.cellsX - 1)) hloop

/-- Witness for C10 on a 2×2 board: seeding one cell and ingesting an
all-black 2×2 image both leave cell 3 dead. -/
def c10Board : playBoard :=
  { cellsX := 2, cells := List.replicate 4 defaultCell, livingCells := 0,
    turns := 0, isDirty := false }

def c10Seeded : playBoard :=
  (initRandomBoard c10Board (fun t => t) 1 4).getD c10Board

def c10Img : Option IngestOut :=
  generateCellMapFromImage 32 2 2 (fun _ => 0) (fun _ => 0) (fun _ => 0)
    c10Board 765

def c10Out : IngestOut := c10Img.getD ⟨false, "", c10Board⟩

theorem lastCell_never_alive_witness :
    (2 ≤ c10Board.cellsX ∧
      initRandomBoard c10Board (fun t => t) 1 4 = some c10Seeded ∧
      c10Img = some c10Out ∧ c10Out.ok = true) ∧
    ((getC c10Seeded (cellCount c10Board - 1)).isLiving = false ∧
      (getC c10Out.board (cellCount c10Board - 1)).isLiving = false) :=
  ⟨⟨by decide, by decide, by decide, by decide⟩,
    lastCell_never_alive.1 c10Board (fun t => t) 1 4 c10Seeded (by decide)
      (by decide),
    lastCell_never_alive.2 32 2 2 (fun _ => 0) (fun _ => 0) (fun _ => 0)
      c10Board 765 c10Out (by decide) (by decide) (by decide)⟩

/-! ## Claim C3: the block rule of image ingestion

The scan order of the analysis loop, written as a list of blocks
`(yb, bx)` (scan row, block column).  A dark block writes the cell at
flat index `yb * (cellsX - 1) + bx` — the per-row index restart
`index = row * cellsX - row` of line 890 — and samples its pixels at the
skewed offset `j + i * imgWidth - i` of line 905. -/

/-- The darkness test the loop performs for the block in scan row `yb`,
block column `bx` (working bounds `(bx+1)*ppcX`, `(yb+1)*ppcY`). -/
def codeBlockDark (imgR imgG imgB : Nat → Nat) (W ppcX ppcY thr bx yb : Nat) :
    Bool :=
  blockIsDark imgR imgG imgB W ppcX ppcY thr ((bx + 1) * ppcX) ((yb + 1) * ppcY)

/-- Fold the block scan over a list of blocks `(yb, bx)`: a dark block
sets the cell at flat index `yb * (cellsX - 1) + bx` alive-and-changed
and increments the living counter (even when the slot was already set by
an earlier block). -/
def applyBlocks (imgR imgG imgB : Nat → Nat) (W ppcX ppcY n thr : Nat)
    (L : List (Nat × Nat)) (st : List cell × Nat) : List cell × Nat :=
  L.foldl (fun acc p =>
    if codeBlockDark imgR imgG imgB W ppcX ppcY thr p.2 p.1 then
      (acc.1.set (p.1 * (n - 1) + p.2) ⟨true, true⟩, acc.2 + 1)
    else acc) st

/-- The blocks the loop still has to scan when it stands in row `r` with
`c` blocks of that row already done: the rest of row `r`, then all the
full rows below. -/
def blocksFrom (n r c : Nat) : List (Nat × Nat) :=
  ((List.range' c (n - c)).map (fun bx => (r, bx))) ++
    ((List.range' (r + 1) (n - (r + 1))).flatMap (fun yb =>
      (List.range n).map (fun bx => (yb, bx))))

theorem applyBlocks_cons (imgR imgG imgB : Nat → Nat) (W ppcX ppcY n thr : Nat)
    (p : Nat × Nat) (L : List (Nat × Nat)) (st : List cell × Nat) :
    applyBlocks imgR imgG imgB W ppcX ppcY n thr (p :: L) st =
      applyBlocks imgR imgG imgB W ppcX ppcY n thr L
        (if codeBlockDark imgR imgG imgB W ppcX ppcY thr p.2 p.1 then
          (st.1.set (p.1 * (n - 1) + p.2) ⟨true, true⟩, st.2 + 1)
        else st) := rfl

theorem range_cons_zero (n : Nat) (h : 1 ≤ n) :
    List.range n = 0 :: List.range' 1 (n - 1) := by
  obtain ⟨m, rfl⟩ : ∃ m, n = m + 1 := ⟨n - 1, by omega⟩
  rw [List.range_eq_range', List.range'_succ]
  simp

theorem blocksFrom_cons (n r c : Nat) (hc : c < n) :
    blocksFrom n r c = (r, c) :: blocksFrom n r (c + 1) := by
  unfold blocksFrom
  have h1 : n - c = (n - (c + 1)) + 1 := by omega
  rw [h1, List.range'_succ, List.map_cons, List.cons_append]

theorem blocksFrom_row_end (n r : Nat) (hr : r + 1 < n) :
    blocksFrom n r n = (r + 1, 0) :: blocksFrom n (r + 1) 1 := by
  unfold blocksFrom
  rw [Nat.sub_self, show List.range' n 0 = [] from rfl, List.map_nil,
    List.nil_append]
  have h2 : n - (r + 1) = (n - (r + 1 + 1)) + 1 := by omega
  rw [h2, List.range'_succ, List.flatMap_cons]
  have hga : (List.range n).map (fun bx => (r + 1, bx)) =
      (r + 1, 0) :: (List.range' 1 (n - 1)).map (fun bx => (r + 1, bx)) := by
    rw [range_cons_zero n (by omega), List.map_cons]
  rw [hga, List.cons_append]

theorem blocksFrom_end (n r : Nat) (hr : r + 1 = n) :
    blocksFrom n r n = [] := by
  unfold blocksFrom
  rw [Nat.sub_self, hr, Nat.sub_self]
  simp

theorem blocksFrom_zero_length (n : Nat) (hn : 1 ≤ n) :
    (blocksFrom n 0 0).length = n * n := by
  obtain ⟨m, rfl⟩ : ∃ m, n = m + 1 := ⟨n - 1, by omega⟩
  unfold blocksFrom
  have hb : ∀ (l : List Nat),
      (l.flatMap (fun yb =>
        (List.range (m + 1)).map (fun bx => (yb, bx)))).length
        = l.length * (m + 1) := by
    intro l
    induction l with
    | nil => simp
    | cons x t ih =>
      rw [List.flatMap_cons, List.length_append, ih, List.length_map,
        List.length_range, List.length_cons]
      ring
  simp only [List.length_append, List.length_map, List.length_range', hb]
  have h3 : m + 1 - 0 = m + 1 := rfl
  have h4 : m + 1 - (0 + 1) = m := rfl
  rw [h3, h4]
  ring

theorem if_pair_split {α β : Type} (c : Prop) [Decidable c] (a1 a2 : α)
    (b1 b2 : β) :
    ((if c then a1 else a2), (if c then b1 else b2)) =
      if c then (a1, b1) else (a2, b2) := by
  by_cases h : c
  · rw [if_pos h, if_pos h, if_pos h]
  · rw [if_neg h, if_neg h, if_neg h]

/-- The analysis loop, run from scan position (row `r`, `c` blocks done)
on a grid whose pixel ratios are exact (`W / ppcX = n`, `H / ppcY = n`),
is the fold of the block rule over the remaining blocks.  For `n ≥ 3`
the index break never fires and the loop ends on the `workingY` check. -/
theorem ingestLoop_blocks (imgR imgG imgB : Nat → Nat)
    (W H ppcX ppcY n thr : Nat)
    (hn : 3 ≤ n) (hpx : 1 ≤ ppcX) (hpy : 1 ≤ ppcY)
    (hkx : W / ppcX = n) (hky : H / ppcY = n) :
    ∀ (fuel r c : Nat) (cl : List cell) (lv : Nat), r < n → c ≤ n →
      (blocksFrom n r c).length + 1 ≤ fuel →
      ∃ s', ingestLoop imgR imgG imgB W H ppcX ppcY n thr fuel
          ⟨c * ppcX, (r + 1) * ppcY, r, r * (n - 1) + c, cl, lv⟩ = some s' ∧
        (s'.cells, s'.living) =
          applyBlocks imgR imgG imgB W ppcX ppcY n thr (blocksFrom n r c)
            (cl, lv) := by
  intro fuel
  induction fuel with
  | zero =>
    intro r c cl lv _ _ hf
    exact absurd hf (by omega)
  | succ fuel ih =>
    intro r c cl lv hr hc hfuel
    rw [ingestLoop]
    dsimp only
    by_cases hcn : c < n
    · -- a regular block of the current row
      have e0 : c * ppcX + ppcX = (c + 1) * ppcX := by ring
      rw [e0]
      have hnov : ¬ W < (c + 1) * ppcX := by
        have h1 : (c + 1) * ppcX ≤ W :=
          (Nat.le_div_iff_mul_le (by omega : 0 < ppcX)).mp
            (by rw [hkx]; omega)
        omega
      rw [if_neg hnov, ingestBlockStep_spec]
      dsimp only
      have hbreak : ¬ n * n - 1 ≤ r * (n - 1) + c + 1 := by
        obtain ⟨m, rfl⟩ : ∃ m, n = m + 1 := ⟨n - 1, by omega⟩
        have hrm : r * m ≤ m * m :=
          Nat.mul_le_mul (by omega : r ≤ m) (Nat.le_refl m)
        have hmm : (m + 1) * (m + 1) = m * m + 2 * m + 1 := by ring
        simp only [Nat.add_sub_cancel]
        omega
      rw [if_neg hbreak]
      rw [blocksFrom_cons n r c hcn] at hfuel
      simp only [List.length_cons] at hfuel
      obtain ⟨s', hs', heq⟩ := ih r (c + 1)
        (if blockIsDark imgR imgG imgB W ppcX ppcY thr ((c + 1) * ppcX)
            ((r + 1) * ppcY) then
          cl.set (r * (n - 1) + c) ⟨true, true⟩ else cl)
        (if blockIsDark imgR imgG imgB W ppcX ppcY thr ((c + 1) * ppcX)
            ((r + 1) * ppcY) then lv + 1 else lv)
        hr (by omega) (by omega)
      refine ⟨s', hs', ?_⟩
      rw [heq, blocksFrom_cons n r c hcn, applyBlocks_cons]
      dsimp only
      rw [if_pair_split]
      rfl
    · -- row exhausted: advance to the next scan row (or finish)
      have hceq : c = n := by omega
      subst hceq
      have hov : W < c * ppcX + ppcX := by
        have h1 : W < (c + 1) * ppcX :=
          (Nat.div_lt_iff_lt_mul (by omega : 0 < ppcX)).mp
            (by rw [hkx]; omega)
        have h2 : (c + 1) * ppcX = c * ppcX + ppcX := by ring
        omega
      rw [if_pos hov]
      by_cases hrend : r + 1 < c
      · -- there is a next row
        have hnoy : ¬ H < (r + 1) * ppcY + ppcY := by
          have h1 : (r + 2) * ppcY ≤ H :=
            (Nat.le_div_iff_mul_le (by omega : 0 < ppcY)).mp
              (by rw [hky]; omega)
          have h2 : (r + 2) * ppcY = (r + 1) * ppcY + ppcY := by ring
          omega
        rw [if_neg hnoy, mul_sub_one_eq, ingestBlockStep_spec]
        dsimp only
        have hbreak2 : ¬ c * c - 1 ≤ (r + 1) * (c - 1) + 1 := by
          obtain ⟨m, rfl⟩ : ∃ m, c = m + 1 := ⟨c - 1, by omega⟩
          have hrm : (r + 1) * m ≤ m * m :=
            Nat.mul_le_mul (by omega : r + 1 ≤ m) (Nat.le_refl m)
          have hmm : (m + 1) * (m + 1) = m * m + 2 * m + 1 := by ring
          simp only [Nat.add_sub_cancel]
          omega
        rw [if_neg hbreak2]
        rw [blocksFrom_row_end c r hrend] at hfuel
        simp only [List.length_cons] at hfuel
        obtain ⟨s', hs', heq⟩ := ih (r + 1) 1
          (if blockIsDark imgR imgG imgB W ppcX ppcY thr ppcX
              ((r + 1) * ppcY + ppcY) then
            cl.set ((r + 1) * (c - 1)) ⟨true, true⟩ else cl)
          (if blockIsDark imgR imgG imgB W ppcX ppcY thr ppcX
              ((r + 1) * ppcY + ppcY) then lv + 1 else lv)
          hrend (by omega) (by omega)
        have e1 : (1 : Nat) * ppcX = ppcX := Nat.one_mul ppcX
        have e2 : (r + 1 + 1) * ppcY = (r + 1) * ppcY + ppcY := by ring
        rw [e1, e2] at hs'
        refine ⟨s', hs', ?_⟩
        rw [heq, blocksFrom_row_end c r hrend, applyBlocks_cons]
        dsimp only
        have hcd2 : codeBlockDark imgR imgG imgB W ppcX ppcY thr 0 (r + 1) =
            blockIsDark imgR imgG imgB W ppcX ppcY thr ppcX
              ((r + 1) * ppcY + ppcY) := by
          unfold codeBlockDark
          rw [show (0 + 1) * ppcX = ppcX from by ring,
            show (r + 1 + 1) * ppcY = (r + 1) * ppcY + ppcY from by ring]
        rw [hcd2, if_pair_split]
        rfl
      · -- the scan is over: the loop returns the state untouched
        have hrn : r + 1 = c := by omega
        have hoy : H < (r + 1) * ppcY + ppcY := by
          have h1 : H < (c + 1) * ppcY :=
            (Nat.div_lt_iff_lt_mul (by omega : 0 < ppcY)).mp
              (by rw [hky]; omega)
          have h2 : (c + 1) * ppcY = c * ppcY + ppcY := by ring
          have h3 : (r + 1) * ppcY = c * ppcY := by rw [hrn]
          omega
        rw [if_pos hoy]
        refine ⟨_, rfl, ?_⟩
        rw [blocksFrom_end c r hrn]
        rfl

/-- C3 (amended): on an exact grid (`W / (W/cellsX) = cellsX`,
`H / (H/cellsX) = cellsX`, `cellsX ≥ 3`) a successful ingestion produces
exactly the fold of the code's block rule over the row-major block scan:
the block in scan row `yb`, column `bx` samples the pixels at the skewed
flat offsets `j + i*imgWidth - i` and, when the sum of the three
per-channel averages is ≤ `colorThreshold`, sets the cell at flat index
`yb * (cellsX - 1) + bx` (not `yb * cellsX + bx`) and bumps
`livingCells`; the cell at index `cellCount - 1` is never assigned. -/
theorem generateCellMapFromImage_blockScan (bpp W H : Nat)
    (imgR imgG imgB : Nat → Nat) (b : playBoard) (thr : Nat)
    (hbpp : ¬ bpp < 32) (hn : 3 ≤ b.cellsX)
    (hpx : 1 ≤ W / b.cellsX) (hpy : 1 ≤ H / b.cellsX)
    (hkx : W / (W / b.cellsX) = b.cellsX) (hky : H / (H / b.cellsX) = b.cellsX) :
    generateCellMapFromImage bpp W H imgR imgG imgB b thr =
      some ⟨true, "",
        { resetPlayboard b with
          cells := (applyBlocks imgR imgG imgB W (W / b.cellsX) (H / b.cellsX)
            b.cellsX thr (blocksFrom b.cellsX 0 0)
            ((resetPlayboard b).cells, 0)).1,
          livingCells := (applyBlocks imgR imgG imgB W (W / b.cellsX)
            (H / b.cellsX) b.cellsX thr (blocksFrom b.cellsX 0 0)
            ((resetPlayboard b).cells, 0)).2 }⟩ := by
  have hfuel : (blocksFrom b.cellsX 0 0).length + 1 ≤ (H + 2) * (W + 2) + 2 := by
    rw [blocksFrom_zero_length b.cellsX (by omega)]
    have hnW : b.cellsX ≤ W := by
      rw [← hkx]
      exact Nat.div_le_self W (W / b.cellsX)
    have hnH : b.cellsX ≤ H := by
      rw [← hky]
      exact Nat.div_le_self H (H / b.cellsX)
    have h1 : b.cellsX * b.cellsX ≤ W * H := Nat.mul_le_mul hnW hnH
    have h2 : W * H ≤ (H + 2) * (W + 2) := by
      calc W * H = H * W := Nat.mul_comm W H
      _ ≤ (H + 2) * (W + 2) :=
        Nat.mul_le_mul (Nat.le_add_right H 2) (Nat.le_add_right W 2)
    omega
  obtain ⟨s', hs', heq⟩ := ingestLoop_blocks imgR imgG imgB W H
    (W / b.cellsX) (H / b.cellsX) b.cellsX thr hn hpx hpy hkx hky
    ((H + 2) * (W + 2) + 2) 0 0 (resetPlayboard b).cells 0 (by omega) (by omega)
    hfuel
  have e1 : (0 : Nat) * (W / b.cellsX) = 0 := by ring
  have e2 : (0 + 1) * (H / b.cellsX) = H / b.cellsX := by ring
  have e3 : 0 * (b.cellsX - 1) + 0 = 0 := by ring
  rw [e1, e2, e3] at hs'
  have hrat : ¬ (W / b.cellsX < 1 ∨ H / b.cellsX < 1) := by
    rintro (h | h)
    · exact Nat.not_lt.mpr hpx h
    · exact Nat.not_lt.mpr hpy h
  simp only [generateCellMapFromImage]
  rw [if_neg hbpp, if_neg hrat, hs']
  dsimp only
  have h1 := congrArg Prod.fst heq
  have h2 := congrArg Prod.snd heq
  dsimp only at h1 h2
  rw [h1, h2]

/-- Modelled from the spec's words for C3: the source block of the cell at
grid position `(x, y)` is the `ppcX × ppcY` pixel rectangle at offset
`(x * ppcX, y * ppcY)`, its pixels read at the unskewed flat offsets
`j + i * imgWidth`; one colour channel summed over that block. -/
def specChannelSum (ch : Nat → Nat) (W ppcX ppcY x y : Nat) : Nat :=
  Finset.sum (Finset.Ico (x * ppcX) ((x + 1) * ppcX)) (fun j =>
    Finset.sum (Finset.Ico (y * ppcY) ((y + 1) * ppcY)) (fun i =>
      ch (j + i * W)))

/-- Modelled from the spec's words for C3: the cell at `(x, y)` is alive
exactly when the sum of the three per-channel block averages is at most
`colorThreshold`. -/
def specBlockAlive (imgR imgG imgB : Nat → Nat) (W ppcX ppcY thr x y : Nat) :
    Bool :=
  decide (specChannelSum imgR W ppcX ppcY x y / (ppcX * ppcY) +
    specChannelSum imgG W ppcX ppcY x y / (ppcX * ppcY) +
    specChannelSum imgB W ppcX ppcY x y / (ppcX * ppcY) ≤ thr)

/-- Counterexample input for C3: a 5×5 board ingesting an all-black
5×5 image (one pixel per cell), threshold 765 (the program's default). -/
def c3Img : Nat → Nat := fun _ => 0

def c3Board : playBoard :=
  { cellsX := 5, cells := List.replicate 25 defaultCell, livingCells := 0,
    turns := 0, isDirty := false }

def c3Run : Option IngestOut :=
  generateCellMapFromImage 32 5 5 c3Img c3Img c3Img c3Board 765

def c3Out : IngestOut := c3Run.getD ⟨false, "", c3Board⟩

/-- Counterexample to C3 as stated: ingesting an all-black image, every
source block (in particular the one of the bottom-right cell `(4, 4)`,
flat index 24) has average sum `0 ≤ 765`, so the claim says that cell
must come out alive; the ingestion succeeds but leaves it dead (the
loop's skewed cell index `row * (cellsX - 1) + column` never reaches
index `cellCount - 1`), and `livingCells` reads 25 while only 21 distinct
cells are alive (colliding blocks double-count). -/
theorem generateCellMapFromImage_blockRule_counterexample :
    specBlockAlive c3Img c3Img c3Img 5 1 1 765 4 4 = true ∧
    c3Run = some c3Out ∧ c3Out.ok = true ∧
    (getC c3Out.board (4 + 4 * 5)).isLiving = false ∧
    c3Out.board.livingCells = 25 ∧ countLiving c3Out.board = 21 := by
  decide

/-- Witness for the amended C3 at the counterexample configuration. -/
theorem generateCellMapFromImage_blockScan_witness :
    (¬ (32 : Nat) < 32 ∧ 3 ≤ c3Board.cellsX ∧
      1 ≤ (5 : Nat) / c3Board.cellsX ∧
      (5 : Nat) / ((5 : Nat) / c3Board.cellsX) = c3Board.cellsX) ∧
    generateCellMapFromImage 32 5 5 c3Img c3Img c3Img c3Board 765 =
      some ⟨true, "",
        { resetPlayboard c3Board with
          cells := (applyBlocks c3Img c3Img c3Img 5 (5 / c3Board.cellsX)
            (5 / c3Board.cellsX) c3Board.cellsX 765
            (blocksFrom c3Board.cellsX 0 0)
            ((resetPlayboard c3Board).cells, 0)).1,
          livingCells := (applyBlocks c3Img c3Img c3Img 5 (5 / c3Board.cellsX)
            (5 / c3Board.cellsX) c3Board.cellsX 765
            (blocksFrom c3Board.cellsX 0 0)
            ((resetPlayboard c3Board).cells, 0)).2 }⟩ :=
  ⟨⟨by decide, by decide, by decide, by decide⟩,
    generateCellMapFromImage_blockScan 32 5 5 c3Img c3Img c3Img c3Board 765
      (by decide) (by decide) (by decide) (by decide) (by decide) (by decide)⟩
